import Mathlib

/-!
Shallow embedding of `src/main.py` (pensoft/taxonomic_tree_builder): the
tree-construction and lineage-resolution engine of `TaxonomicTreeBuilder`,
together with proofs settling the frozen claims about it.

Modelling conventions, in source order:

* Python strings are lists of Unicode code points (`Str := List Nat`);
  `str.lower` is modelled on the ASCII range, the range the identifier
  normalisation in the source relies on.
* Byte offsets are abstracted to line indices: the source uses offsets only
  as opaque keys recorded by `read` (`file.tell()`) and passed back to
  `read(seek_bytes=...)`, and distinct lines have distinct offsets.
* The `treelib.Tree` is the list of its nodes in insertion order, with the
  synthetic root (`create_tree`, line 221) at the head.  `create_node`
  validates duplicate-identifier / absent-parent before mutating, as
  treelib's `add_node` does, so a failed insert leaves the tree unchanged.
* Python exceptions are `Except` values: `PyErr.indexError` for the
  uncaught `IndexError` when a row has fewer than three fields (lines
  376-378), `PyErr.duplicateOrMissingParent` for treelib's
  `DuplicatedNodeIdError` / `NodeIDAbsentError` escaping the unguarded
  insert at line 407.  `add_node_to_tree` returns the post-exception
  builder state in its `error` case (the caller's `self` after the
  `num_read_rows` rollback on lines 244-246).
* The retry loop (lines 445-447) is Python's `for bytes in
  self.__faild_rows`, which iterates a list that `build_tree` may extend
  while the loop runs (a Python list iterator visits elements appended
  during iteration).  It is embedded with an explicit index plus a fuel
  bound; fuel exhaustion is reported as `false` in the result flag, so
  `false` for every fuel value means the Python loop never terminates.
* `__faild_rows` is a class attribute of `TaxonomicTreeBuilder` (line 182)
  and `__init__` does not reset it, so its contents persist across
  freshly-constructed instances inside one process; `processing` therefore
  takes the carried-over list as an explicit `carry` argument and returns,
  besides the instance state, the value the class attribute has after the
  run (the list before the `self.__faild_rows = []` at line 448, which
  only creates an instance attribute).
* Database export, callbacks, timing and progress printing are outside
  every claim and are not modelled.
-/

/-- Python strings as lists of Unicode code points. -/
abbrev Str := List Nat

/-- ASCII model of `str.lower` on one code point. -/
def lowerCode (c : Nat) : Nat := if 65 ≤ c ∧ c ≤ 90 then c + 32 else c

/-- ASCII model of `str.lower`. -/
def pyLower (s : Str) : Str := s.map lowerCode

/-- `'root'` — identifier and tag of the synthetic root node. -/
def rootStr : Str := [114, 111, 111, 116]

/-- One node of the `treelib` tree: `tag` is the display label (original
case), `identifier` the lower-cased key, `parent` the parent's identifier
(`none` only for the synthetic root).  The node's `data` dictionary is
rendered by its fields `bytes` (source offset), `idnum` (`data['id']`,
the sequence id assigned by `add_node_to_tree`) and `classification`
(`data['classification']`/`data['classification_ids']`, `none` while
`update_node` has not attached lineage data).  The root's `data` is
`None`, rendered as `bytes := 0`, `idnum := 0`, `classification := none`
(matching `get_value_or_default(None, 'id', 0) = 0`). -/
structure TNode where
  tag : Str
  identifier : Str
  parent : Option Str
  bytes : Nat
  idnum : Nat
  classification : Option (List Str × List Nat)
deriving DecidableEq, Repr

/-- The synthetic root created by `create_tree`. -/
def rootNode : TNode := ⟨rootStr, rootStr, none, 0, 0, none⟩

/-- The mutable state of a `TaxonomicTreeBuilder`: the tree, the
`num_read_rows` counter, the `nodes` list of inserted identifiers and the
`__faild_rows` list of deferred byte offsets. -/
structure Builder where
  tree : List TNode
  num_read_rows : Nat
  nodes : List Str
  faild_rows : List Nat
deriving DecidableEq, Repr

/-- One decoded line as yielded by `read`/`process_line`: the field list,
the byte offset of the line and the header flag (`header >= line_number`). -/
structure RawRow where
  data : List Str
  bytes : Nat
  header : Bool
deriving DecidableEq, Repr

/-- Python exceptions that escape `build_tree`/`processing`. -/
inductive PyErr where
  | indexError
  | duplicateOrMissingParent
deriving DecidableEq, Repr

/-- `tree.get_node(nid)`: lookup in `tree._nodes` (the root included). -/
def findNode (t : List TNode) (nid : Str) : Option TNode :=
  t.find? (fun n => decide (n.identifier = nid))

/-- `TaxonomicTreeBuilder.add_node_to_tree` (lines 226-247): increment
`num_read_rows`, lower-case identifier and parent, store
`data['id'] = num_read_rows`, let `tree.create_node` validate duplicate
identifier / absent parent, roll the counter back and re-raise on failure
(the `error` case carries the caller's state after the rollback), append
the identifier to `nodes` on success. -/
def add_node_to_tree (b : Builder) (tag parent : Str) (bytes : Nat) :
    Except Builder Builder :=
  let nrr := b.num_read_rows + 1
  let identifier := pyLower tag
  let parentL := pyLower parent
  if (findNode b.tree identifier).isSome then
    .error { b with num_read_rows := nrr - 1 }
  else if (findNode b.tree parentL).isNone then
    .error { b with num_read_rows := nrr - 1 }
  else
    .ok { b with
      tree := b.tree ++ [⟨tag, identifier, some parentL, bytes, nrr, none⟩],
      num_read_rows := nrr,
      nodes := b.nodes ++ [identifier] }

/-- `TaxonomicTreeBuilder.fetch_node` (non-extended): lower-case the
identifier, then `tree.get_node`. -/
def fetch_node (b : Builder) (nid : Str) : Option TNode :=
  findNode b.tree (pyLower nid)

/-- `tree.parent(nid)` as used both by `build_classification.get_parent`
and by the accepted-usage resolution in `build_tree`: `none` when the
node is absent, when it is the root (no predecessor), or when its
recorded parent is not in the tree — in each case the Python callers see
either `None` or a caught exception and treat it the same way. -/
def get_parent (t : List TNode) (nid : Str) : Option TNode :=
  match findNode t nid with
  | none => none
  | some n =>
    match n.parent with
    | none => none
    | some p => findNode t p

/-- The `while node != None` walk of `build_classification` (lines
429-437), with explicit fuel: step to the parent, record its
`(tag, data['id'])` pair, continue from it.  The walk of the source
terminates on every tree reachable in a run (parents are inserted before
children), which is why `build_classification` below supplies fuel
`t.length + 1`, an upper bound on the walk's iterations there. -/
def classifyGo (t : List TNode) : Nat → Str → List (Str × Nat)
  | 0, _ => []
  | fuel + 1, nid =>
    match get_parent t nid with
    | none => []
    | some q => (q.tag, q.idnum) :: classifyGo t fuel q.identifier

/-- `TaxonomicTreeBuilder.build_classification` (lines 413-437): the
ancestor chain of `nid`, nearest first, ending with the root pair
`('root', 0)`. -/
def build_classification (t : List TNode) (nid : Str) : List (Str × Nat) :=
  classifyGo t (t.length + 1) nid

/-- One insertion step of Python `dict(pairs)`: overwrite the value if the
key exists, else append. -/
def dictInsert (acc : List (Str × Nat)) (p : Str × Nat) : List (Str × Nat) :=
  if acc.any (fun q => decide (q.1 = p.1)) then
    acc.map (fun q => if q.1 = p.1 then (q.1, p.2) else q)
  else acc ++ [p]

/-- Python `dict(pairs)` as an association list: first-occurrence key
order, last value wins. -/
def pyDict (l : List (Str × Nat)) : List (Str × Nat) := l.foldl dictInsert []

/-- `list(dict(pairs).keys())`. -/
def pyDictKeys (l : List (Str × Nat)) : List Str := (pyDict l).map Prod.fst

/-- `list(dict(pairs).values())`. -/
def pyDictVals (l : List (Str × Nat)) : List Nat := (pyDict l).map Prod.snd

/-- `tree.update_node(nid, data=...)` as used on line 405: replace the
node's data, which here only changes the classification slot (the
`bytes` and `id` entries are re-stored unchanged). -/
def updateCls (t : List TNode) (nid : Str) (ls : List Str) (ids : List Nat) :
    List TNode :=
  t.map (fun n =>
    if n.identifier = nid then { n with classification := some (ls, ids) }
    else n)

/-- `self.__faild_rows.append(row['bytes'])`. -/
def deferRow (b : Builder) (o : Nat) : Builder :=
  { b with faild_rows := b.faild_rows ++ [o] }

/-- Lines 394-407 of `build_tree`, after the effective parent has been
resolved: insert under a non-empty parent (deferring the row when
`add_node_to_tree` raises) and attach the classification, or insert
directly under `'root'` — where a raised exception is NOT caught and
aborts the run. -/
def insertResolved (b : Builder) (taxonId parentId : Str) (o : Nat) :
    Except PyErr Builder :=
  if 0 < parentId.length then
    match add_node_to_tree b taxonId parentId o with
    | .error b1 => .ok (deferRow b1 o)
    | .ok b1 =>
      let classification := build_classification b1.tree (pyLower taxonId)
      if 0 < classification.length then
        let t2 := updateCls b1.tree (pyLower taxonId)
          (pyDictKeys classification.dropLast) (pyDictVals classification.dropLast)
        .ok { b1 with tree := t2 }
      else .ok b1
  else
    match add_node_to_tree b taxonId rootStr o with
    | .error _ => .error .duplicateOrMissingParent
    | .ok b1 => .ok b1

/-- `TaxonomicTreeBuilder.build_tree` (lines 365-411).  Field extraction
from positions 0, 1, 2 happens before the header check, so a row with
fewer than three fields raises an uncaught `IndexError` even for header
lines.  A non-empty `acceptedNameUsageId` redirects the effective parent
to the accepted node's parent; any failure there (node absent, node is
the root, recorded parent missing) appends the offset to `__faild_rows`
and returns. -/
def build_tree (b : Builder) (row : RawRow) : Except PyErr Builder :=
  match row.data[0]?, row.data[1]?, row.data[2]? with
  | some d0, some d1, some d2 =>
    if row.header then .ok b
    else
      if 0 < (pyLower d2).length then
        match get_parent b.tree (pyLower d2) with
        | none => .ok (deferRow b row.bytes)
        | some q => insertResolved b d0 q.identifier row.bytes
      else insertResolved b d0 (pyLower d1) row.bytes
  | _, _, _ => .error .indexError

/-- The first-pass loop `for row in p.read(header=1): self.build_tree(row)`. -/
def passRows : Builder → List RawRow → Except PyErr Builder
  | b, [] => .ok b
  | b, r :: rs =>
    match build_tree b r with
    | .error e => .error e
    | .ok b2 => passRows b2 rs

/-- The input file, already split into field lists (`csv.reader` with the
configured delimiter yields one field list per line); the byte offset of
line `i` is abstracted to `i`. -/
abbrev InputFile := List (List Str)

/-- Numbering loop of `read` in streaming mode: line numbers are 1-based,
`is_header = header >= line_number`. -/
def fileRowsGo (hdr : Nat) : Nat → List (List Str) → List RawRow
  | _, [] => []
  | i, l :: ls => ⟨l, i, decide (i + 1 ≤ hdr)⟩ :: fileRowsGo hdr (i + 1) ls

/-- `read(header=hdr)` in streaming mode. -/
def fileRows (f : InputFile) (hdr : Nat) : List RawRow := fileRowsGo hdr 0 f

/-- `read(header=0, seek_bytes=o)`: yield exactly the one record at
offset `o` (with `header = (0 >= 1) = false`), or nothing at end of
file. -/
def seekRow (f : InputFile) (o : Nat) : Option RawRow :=
  match f[o]? with
  | none => none
  | some l => some ⟨l, o, false⟩

/-- A `TaxonomicTreeBuilder` after `__init__`: fresh tree holding only the
root, counters zeroed — but `__faild_rows` is a class attribute that
`__init__` does not touch, so it starts with whatever previous runs in
the process left in it (`carry`; `[]` only for the first builder of a
process). -/
def initBuilder (carry : List Nat) : Builder := ⟨[rootNode], 0, [], carry⟩

/-- The body of one retry-loop iteration (line 446-447):
`for row in p.read(header=0, seek_bytes=o): build_tree(row)` — nothing
happens when the seek hits end of file. -/
def retryStep (f : InputFile) (b : Builder) (o : Nat) : Except PyErr Builder :=
  match seekRow f o with
  | none => .ok b
  | some r => build_tree b r

/-- The retry loop of `processing` (lines 445-447):
`for bytes in self.__faild_rows: ...` (body in `retryStep`).  A Python
list iterator re-checks the current length each step, so elements
appended by `build_tree` during the loop are visited too; `i` is the
iterator's index.  `fuel` bounds the number of iterations modelled: the
Bool is `true` when the loop reached its end within the bound and
`false` when fuel ran out first, so a result of `false` for every fuel
value means the Python loop runs forever. -/
def retryLoop (f : InputFile) : Nat → Nat → Builder → Except PyErr (Builder × Bool)
  | 0, i, b => .ok (b, !decide (i < b.faild_rows.length))
  | fuel + 1, i, b =>
    if h : i < b.faild_rows.length then
      match retryStep f b (b.faild_rows.get ⟨i, h⟩) with
      | .error e => .error e
      | .ok b2 => retryLoop f fuel (i + 1) b2
    else .ok (b, true)

/-- `TaxonomicTreeBuilder.processing` (lines 439-451), minus the export
callbacks: first pass over the stream, then the retry loop.  Returns the
instance state (with `__faild_rows` rebound to `[]` when the retry loop
finished, as line 448 does), the value left in the class attribute
`__faild_rows` (rebinding on line 448 creates an instance attribute and
does not clear the class-level list), and the loop-finished flag. -/
def processing (carry : List Nat) (f : InputFile) (fuel : Nat) :
    Except PyErr (Builder × List Nat × Bool) :=
  match passRows (initBuilder carry) (fileRows f 1) with
  | .error e => .error e
  | .ok b =>
    match retryLoop f fuel 0 b with
    | .error e => .error e
    | .ok (b2, fin) =>
      .ok (if fin then { b2 with faild_rows := [] } else b2, b2.faild_rows, fin)

/-- The cached lineage labels of a node (`data['classification']`,
absent treated as empty). -/
def linLabels (n : TNode) : List Str :=
  match n.classification with
  | none => []
  | some (ls, _) => ls

/-- The cached lineage ids of a node (`data['classification_ids']`,
absent treated as empty). -/
def linIds (n : TNode) : List Nat :=
  match n.classification with
  | none => []
  | some (_, ids) => ids

/-- Edge distance from the synthetic root, with fuel; follows the same
parent pointers as the tree. -/
def depthGo (t : List TNode) : Nat → Str → Nat
  | 0, _ => 0
  | fuel + 1, nid =>
    match findNode t nid with
    | none => 0
    | some n =>
      match n.parent with
      | none => 0
      | some p => depthGo t fuel p + 1

/-- Depth of a node below the synthetic root (root has depth 0); the
fuel `t.length` suffices on every tree built by a run. -/
def depth (t : List TNode) (nid : Str) : Nat := depthGo t t.length nid

/-! ### Basic facts about the `str.lower` model -/

lemma lowerCode_idem (c : Nat) : lowerCode (lowerCode c) = lowerCode c := by
  simp only [lowerCode]
  split
  · next h => rw [if_neg (by omega)]
  · next h => rfl

lemma pyLower_idem (s : Str) : pyLower (pyLower s) = pyLower s := by
  induction s with
  | nil => rfl
  | cons a s ih =>
      simp only [pyLower, List.map_cons] at ih ⊢
      rw [lowerCode_idem]
      exact congrArg _ ih

lemma pyLower_length (s : Str) : (pyLower s).length = s.length :=
  List.length_map _ _

/-! ### Concrete inputs used by the claims

Field values are code-point lists: `[65] = "A"`, `[66] = "B"`,
`[67] = "C"`, `[97] = "a"`, `[98] = "b"`, `[99] = "c"`, `[100] = "d"`,
`[113] = "q"`, `[115] = "s"`, `[120] = "x"`, `[104] = "h"`. -/

/-- A header line with the three mandatory columns. -/
def hdrRow : List Str := [[104], [104], [104]]

/-- Claim C2's input: `(id=A)`, `(id=B, parent=A)`, `(id=C, accepted=B)`. -/
def c2File : InputFile := [hdrRow, [[65], [], []], [[66], [65], []], [[67], [], [66]]]

/-- Claim C1's failing input: one row `(id=x, parent=q)` where `q` never
appears in the file, so the row can never be resolved. -/
def c1File : InputFile := [hdrRow, [[120], [113], []]]

/-- Claim C9's input: forward reference `(id=b, parent=a)` before
`(id=a)`, so the first row is deferred and resolved in the retry pass. -/
def c9File : InputFile := [hdrRow, [[98], [97], []], [[97], [], []]]

/-- Claim C5's input: `a`; `b` under `a`; synonym `s` with `accepted=b`;
then `d` naming the synonym `s` as its parent. -/
def c5File : InputFile :=
  [hdrRow, [[97], [], []], [[98], [97], []], [[115], [], [98]], [[100], [115], []]]

/-- Claim C8's failing input: a data line with a single field (no
delimiter), so positions 1 and 2 do not exist. -/
def c8File : InputFile := [hdrRow, [[120]]]

/-- The tree produced by a `processing` run (empty on an aborted run). -/
def runTree (r : Except PyErr (Builder × List Nat × Bool)) : List TNode :=
  match r with
  | .ok (b, _, _) => b.tree
  | .error _ => []

/-! ### A diverging retry loop

If from iterator position `i` on, every step of the retry loop turns
state `g i` into `g (i + 1)` while the deferred list stays longer than
the index, the loop never reaches the end of the list: the Python
`for bytes in self.__faild_rows` runs forever. -/

lemma retryLoop_stuck (f : InputFile) (g : Nat → Builder)
    (hlen : ∀ i, i < (g i).faild_rows.length)
    (hstep : ∀ i, ∀ (h : i < (g i).faild_rows.length),
      retryStep f (g i) ((g i).faild_rows.get ⟨i, h⟩) = Except.ok (g (i + 1))) :
    ∀ fuel i, retryLoop f fuel i (g i) = .ok (g (i + fuel), false) := by
  intro fuel
  induction fuel with
  | zero =>
      intro i
      simp [retryLoop, hlen i]
  | succ fl ih =>
      intro i
      have h := hlen i
      simp only [retryLoop]
      rw [dif_pos h, hstep i h]
      show retryLoop f fl (i + 1) (g (i + 1)) = _
      rw [ih (i + 1)]
      have harith : i + 1 + fl = i + (fl + 1) := by omega
      rw [harith]

/-! ### Claim C1 -/

/-- The builder state after `k` retry iterations on `c1File`: the tree
never grows (the parent `q` never exists), while each iteration re-appends
offset `1` to the deferred list the loop is iterating. -/
def c1Stuck (k : Nat) : Builder := ⟨[rootNode], 0, [], List.replicate (k + 1) 1⟩

lemma c1_hlen : ∀ i, i < (c1Stuck i).faild_rows.length := by
  intro i
  simp [c1Stuck]

lemma c1_hstep : ∀ i, ∀ (h : i < (c1Stuck i).faild_rows.length),
    retryStep c1File (c1Stuck i) ((c1Stuck i).faild_rows.get ⟨i, h⟩) =
      Except.ok (c1Stuck (i + 1)) := by
  intro i h
  have hget : (c1Stuck i).faild_rows.get ⟨i, h⟩ = 1 := by
    simp [c1Stuck, List.get_eq_getElem]
  rw [hget]
  have hone : retryStep c1File (c1Stuck i) 1 =
      Except.ok ⟨[rootNode], 0, [], List.replicate (i + 1) 1 ++ [1]⟩ := rfl
  rw [hone]
  simp [c1Stuck, List.replicate_succ']

/-- C1: refuted by the code — the retry phase does NOT terminate on every
finite input, and a record that fails its first retry is NOT dropped: on
`c1File` (one row whose parent `q` never appears) each retry iteration
appends the same offset `1` back onto the `__faild_rows` list that the
`for` loop is iterating, so after any number `fuel` of iterations the
loop is still strictly inside the (now longer) list — the flag is `false`
for every fuel bound, i.e. the Python loop never reaches its end,
re-reads offset `1` forever, and never reports the row as failed. -/
theorem c1_retry_pass_never_terminates :
    ∀ fuel, processing [] c1File fuel =
      .ok (c1Stuck fuel, List.replicate (fuel + 1) 1, false) := by
  intro fuel
  have hr := retryLoop_stuck c1File c1Stuck c1_hlen c1_hstep fuel 0
  rw [Nat.zero_add] at hr
  have hstart : processing [] c1File fuel =
      (match retryLoop c1File fuel 0 (c1Stuck 0) with
       | .error e => .error e
       | .ok (b2, fin) =>
          .ok (if fin then { b2 with faild_rows := [] } else b2, b2.faild_rows, fin)) := rfl
  rw [hstart, hr]
  rfl

/-! ### Claim C2 -/

/-- C2: counterexample to the stated example — in the tree produced from
`c2File` the node for row C (identifier `"c" = [99]`) carries the cached
lineage `["A"]` (labels `[[65]]`), not the empty lineage the claim
asserts: C is inserted under A (the parent of its accepted usage B), so
its lineage is `[A]`, the same as B's. -/
theorem c2_counterexample :
    (findNode (runTree (processing [] c2File 1)) [99]).map linLabels = some [[65]]
    ∧ some ([[65]] : List Str) ≠ some ([] : List Str) :=
  ⟨rfl, by decide⟩

/-- C2 (amended): for the three-row input `(id=A)`, `(id=B, parent=A)`,
`(id=C, accepted=B)` the tree has A under the synthetic root, B under A
and C under A as a sibling of B; B's lineage is `[A]` and C's lineage is
also `[A]` (with lineage ids `[1]`) — not empty, since C sits one level
below the root. -/
theorem c2_amended :
    (runTree (processing [] c2File 1)).map (fun n => (n.tag, n.identifier, n.parent)) =
      [(rootStr, rootStr, none), ([65], [97], some rootStr),
       ([66], [98], some [97]), ([67], [99], some [97])]
    ∧ (findNode (runTree (processing [] c2File 1)) [98]).map linLabels = some [[65]]
    ∧ (findNode (runTree (processing [] c2File 1)) [99]).map linLabels = some [[65]]
    ∧ (findNode (runTree (processing [] c2File 1)) [99]).map linIds = some [1] :=
  ⟨rfl, rfl, rfl, rfl⟩

/-! ### Claim C8 -/

/-- C8: refuted by the code — a malformed data record is NOT treated like
a permanently unresolved reference.  `build_tree` indexes positions 0, 1
and 2 of the field list before any guard, so on `c8File` (a data line
with a single field) the whole run aborts with an uncaught `IndexError`
instead of reporting the row and continuing. -/
theorem c8_malformed_row_aborts_run :
    ∀ fuel, processing [] c8File fuel = .error PyErr.indexError := by
  intro fuel
  rfl

/-! ### Claim C9 -/

/-- Node `a` as inserted from `c9File` (offset 2, sequence id 1). -/
def c9NodeA : TNode := ⟨[97], [97], some rootStr, 2, 1, none⟩

/-- Node `b` as inserted from `c9File` in the retry pass (offset 1,
sequence id 2, lineage `["a"]`). -/
def c9NodeB : TNode := ⟨[98], [98], some [97], 1, 2, some ([[97]], [1])⟩

/-- The fully resolved tree of `c9File`. -/
def c9Tree : List TNode := [rootNode, c9NodeA, c9NodeB]

/-- Result builder of the first `processing` run on `c9File`. -/
def c9Run1 : Builder := ⟨c9Tree, 2, [[97], [98]], []⟩

/-- The second run's state after its first pass: the carried-over class
attribute `__faild_rows = [1]` has been extended by the fresh deferral of
row `b`, so the retry loop will visit offset `1` twice. -/
def c9FirstPass : Builder := ⟨[rootNode, c9NodeA], 1, [[97]], [1, 1]⟩

/-- The second run's state from retry iteration 1 on: row `b` is already
in the tree, so re-processing offset `1` raises `DuplicatedNodeIdError`,
which `build_tree` turns into yet another append of offset `1`. -/
def c9G (k : Nat) : Builder := ⟨c9Tree, 2, [[97], [98]], List.replicate (k + 1) 1⟩

lemma c9_hlen : ∀ i, i < (c9G i).faild_rows.length := by
  intro i
  simp [c9G]

lemma c9_hstep : ∀ i, ∀ (h : i < (c9G i).faild_rows.length),
    retryStep c9File (c9G i) ((c9G i).faild_rows.get ⟨i, h⟩) =
      Except.ok (c9G (i + 1)) := by
  intro i h
  have hget : (c9G i).faild_rows.get ⟨i, h⟩ = 1 := by
    simp [c9G, List.get_eq_getElem]
  rw [hget]
  have hone : retryStep c9File (c9G i) 1 =
      Except.ok ⟨c9Tree, 2, [[97], [98]], List.replicate (i + 1) 1 ++ [1]⟩ := rfl
  rw [hone]
  simp [c9G, List.replicate_succ']

/-- C9: refuted by the code — resolution is NOT a function of the input
stream alone.  `__faild_rows` is a class attribute which `__init__` never
resets, so the first run on `c9File` (which terminates, producing
`c9Run1` and leaving `[1]` in the class attribute) poisons every later
"freshly initialized" builder in the same process: the second run on the
identical input replays the stale offset `1`, hits a duplicate-identifier
error, re-defers the offset into the list its own retry loop is
iterating, and never terminates — it produces no tree at all, let alone
an identical one. -/
theorem c9_second_fresh_run_diverges :
    processing [] c9File 1 = .ok (c9Run1, [1], true)
    ∧ ∀ fuel, ∃ b, processing [1] c9File fuel = .ok (b, b.faild_rows, false) := by
  refine ⟨rfl, ?_⟩
  intro fuel
  cases fuel with
  | zero => exact ⟨c9FirstPass, rfl⟩
  | succ fl =>
      refine ⟨c9G (1 + fl), ?_⟩
      have h1 : retryLoop c9File (fl + 1) 0 c9FirstPass =
          retryLoop c9File fl 1 (c9G 1) := rfl
      have hr := retryLoop_stuck c9File c9G c9_hlen c9_hstep fl 1
      have hstart : processing [1] c9File (fl + 1) =
          (match retryLoop c9File (fl + 1) 0 c9FirstPass with
           | .error e => .error e
           | .ok (b2, fin) =>
              .ok (if fin then { b2 with faild_rows := [] } else b2, b2.faild_rows, fin)) := rfl
      rw [hstart, h1, hr]
      rfl

/-! ### Claim C6 -/

/-- C6: confirmed.  When `add_node_to_tree` fails because the (lower-cased)
identifier already exists in the tree or the (lower-cased) parent is
absent, the failure is a raised-and-catchable exception (the `Except.error`
that `build_tree`'s `try/except` handles) and the state it leaves behind
is exactly the pre-call state `b`: tree, `nodes` list and `num_read_rows`
are all unchanged — the counter increment is rolled back, and treelib's
`create_node` validates before mutating, so there is no partial insert. -/
theorem c6_failed_insert_catchable_state_unchanged
    (b : Builder) (tag parent : Str) (bytes : Nat)
    (h : (findNode b.tree (pyLower tag)).isSome = true ∨
         findNode b.tree (pyLower parent) = none) :
    add_node_to_tree b tag parent bytes = .error b := by
  simp only [add_node_to_tree]
  have hb : (⟨b.tree, b.num_read_rows + 1 - 1, b.nodes, b.faild_rows⟩ : Builder) = b := by
    rw [Nat.add_sub_cancel]
  rcases h with h | h
  · rw [if_pos h, hb]
  · by_cases hd : (findNode b.tree (pyLower tag)).isSome = true
    · rw [if_pos hd, hb]
    · rw [if_neg hd, if_pos (Option.isNone_iff_eq_none.mpr h), hb]

/-- Witness for C6: inserting `(id=x, parent=q)` into a fresh builder
(where `q` is absent) raises and leaves the builder exactly as it was. -/
theorem c6_witness :
    add_node_to_tree (initBuilder []) [120] [113] 7 = .error (initBuilder []) :=
  c6_failed_insert_catchable_state_unchanged (initBuilder []) [120] [113] 7
    (Or.inr (by decide))

/-! ### Lookup lemmas -/

lemma findNode_some {t : List TNode} {nid : Str} {n : TNode}
    (h : findNode t nid = some n) : n.identifier = nid ∧ n ∈ t := by
  refine ⟨?_, List.mem_of_find?_eq_some h⟩
  have := List.find?_some h
  simpa using this

lemma findNode_none {t : List TNode} {nid : Str} :
    findNode t nid = none ↔ ∀ n ∈ t, n.identifier ≠ nid := by
  simp [findNode, List.find?_eq_none]


lemma findNode_get {t : List TNode} (hnd : (t.map TNode.identifier).Nodup)
    (i : Nat) (h : i < t.length) :
    findNode t (t[i]).identifier = some t[i] := by
  induction t generalizing i with
  | nil => simp at h
  | cons x xs ih =>
      cases i with
      | zero => simp [findNode]
      | succ i =>
          have hlt : i < xs.length := by simpa using h
          have hmem : xs[i] ∈ xs := List.getElem_mem hlt
          have hnd2 : x.identifier ∉ xs.map TNode.identifier ∧
              (xs.map TNode.identifier).Nodup := by
            simpa [List.nodup_cons] using hnd
          have hx : ¬ (decide (x.identifier = (xs[i]).identifier) = true) := by
            simp only [decide_eq_true_eq]
            intro hEq
            exact hnd2.1 (hEq ▸ List.mem_map_of_mem TNode.identifier hmem)
          have hcons : (x :: xs)[i + 1] = xs[i] := List.getElem_cons_succ ..
          rw [hcons]
          have hstep : findNode (x :: xs) (xs[i]).identifier =
              findNode xs (xs[i]).identifier :=
            List.find?_cons_of_neg _ hx
          rw [hstep, ih hnd2.2 i hlt]

lemma findNode_append (t l2 : List TNode) (nid : Str) :
    findNode (t ++ l2) nid = (findNode t nid).or (findNode l2 nid) :=
  List.find?_append

lemma findNode_append_of_some {t : List TNode} {nid : Str} {n : TNode}
    (l2 : List TNode) (h : findNode t nid = some n) :
    findNode (t ++ l2) nid = some n := by
  rw [findNode_append, h]
  rfl

lemma findNode_append_of_none {t : List TNode} {nid : Str}
    (l2 : List TNode) (h : findNode t nid = none) :
    findNode (t ++ l2) nid = findNode l2 nid := by
  rw [findNode_append, h]
  rfl

lemma findNode_map {t : List TNode} {g : TNode → TNode}
    (hg : ∀ n, (g n).identifier = n.identifier) (nid : Str) :
    findNode (t.map g) nid = (findNode t nid).map g := by
  unfold findNode
  rw [List.find?_map]
  have hfun : ((fun n => decide (n.identifier = nid)) ∘ g) =
      (fun n : TNode => decide (n.identifier = nid)) := by
    funext n
    simp [Function.comp, hg]
  rw [hfun]

/-! ### The structural invariant of trees reachable in a run -/

/-- Well-formedness of the embedded `treelib` tree, maintained by every
operation of a run: the synthetic root sits at the head; identifiers are
unique; `data['id']` values are exactly the positions in insertion order
(so the root has 0 and real nodes have `1..n`, each strictly larger than
all earlier ones); every non-root node's parent was inserted strictly
earlier; identifiers are the lower-cased tags; stored parent references
are never the empty string. -/
structure Wf (t : List TNode) : Prop where
  shape0 : t.head? = some rootNode
  nodupIds : (t.map TNode.identifier).Nodup
  idsRange : t.map TNode.idnum = List.range t.length
  parentEarlier : ∀ i, ∀ (h : i < t.length), 0 < i →
    ∃ p, (t[i]).parent = some p ∧
      ∃ j, ∃ (hj : j < t.length), j < i ∧ (t[j]).identifier = p
  lowerTag : ∀ n ∈ t, n.identifier = pyLower n.tag
  parentNe : ∀ n ∈ t, ∀ p, n.parent = some p → p ≠ []

lemma Wf.ne_nil {t : List TNode} (hW : Wf t) : t ≠ [] := by
  intro h
  rw [h] at hW
  exact Option.noConfusion hW.shape0

lemma Wf.length_pos {t : List TNode} (hW : Wf t) : 0 < t.length :=
  List.length_pos.mpr hW.ne_nil

lemma Wf.get0 {t : List TNode} (hW : Wf t) (h : 0 < t.length) :
    t[0] = rootNode := by
  have := hW.shape0
  cases t with
  | nil => simp at h
  | cons x xs => simpa using this

/-- Identifiers are distinct at distinct positions. -/
lemma Wf.id_ne {t : List TNode} (hW : Wf t) {i j : Nat}
    (hi : i < t.length) (hj : j < t.length) (hne : i ≠ j) :
    (t[i]).identifier ≠ (t[j]).identifier := by
  intro hEq
  have hi2 : i < (t.map TNode.identifier).length := by simpa using hi
  have hj2 : j < (t.map TNode.identifier).length := by simpa using hj
  have hg : (t.map TNode.identifier).get ⟨i, hi2⟩ =
      (t.map TNode.identifier).get ⟨j, hj2⟩ := by
    simpa using hEq
  have := (hW.nodupIds.get_inj_iff).mp hg
  exact hne (by simpa using congrArg Fin.val this)

/-- Only position 0 carries the identifier `'root'`. -/
lemma Wf.id_root_iff {t : List TNode} (hW : Wf t) {i : Nat} (hi : i < t.length) :
    (t[i]).identifier = rootStr ↔ i = 0 := by
  constructor
  · intro hEq
    by_contra hne
    have h0 : 0 < t.length := hW.length_pos
    have := hW.id_ne hi h0 hne
    rw [hEq, hW.get0 h0] at this
    exact this rfl
  · intro h0
    subst h0
    rw [hW.get0 hi]
    rfl

/-! ### The parent walk on well-formed trees -/

lemma findNode_root {t : List TNode} (hW : Wf t) :
    findNode t rootStr = some rootNode := by
  have h0 := findNode_get hW.nodupIds 0 hW.length_pos
  rwa [hW.get0 hW.length_pos] at h0

lemma get_parent_rootStr {t : List TNode} (hW : Wf t) :
    get_parent t rootStr = none := by
  simp [get_parent, findNode_root hW, rootNode]

lemma get_parent_at {t : List TNode} (hW : Wf t) (i : Nat) (h : i < t.length)
    (hpos : 0 < i) :
    ∃ j, ∃ (hj : j < t.length), j < i ∧
      get_parent t (t[i]).identifier = some t[j] ∧
      (t[i]).parent = some (t[j]).identifier := by
  obtain ⟨p, hp, j, hj, hji, hpj⟩ := hW.parentEarlier i h hpos
  refine ⟨j, hj, hji, ?_, ?_⟩
  · have hfi := findNode_get hW.nodupIds i h
    have hfj := findNode_get hW.nodupIds j hj
    rw [hpj] at hfj
    simp [get_parent, hfi, hp, hfj]
  · rw [hp, hpj]

lemma depthGo_rootStr {t : List TNode}
    (hroot : findNode t rootStr = some rootNode) :
    ∀ f, depthGo t f rootStr = 0 := by
  intro f
  cases f with
  | zero => rfl
  | succ f => simp [depthGo, hroot, rootNode]

/-- Depth is insensitive to the fuel (as long as it covers the node's
index) and to tree extensions that preserve the parent field of every
old node's lookup: appending a fresh node or rewriting classification
slots changes no existing node's depth. -/
lemma depthGo_ext {t t2 : List TNode} (hW : Wf t)
    (hext : ∀ nid, ∀ n, findNode t nid = some n →
      ∃ n2, findNode t2 nid = some n2 ∧ n2.parent = n.parent) :
    ∀ i, ∀ (h : i < t.length), ∀ f1 f2, i + 1 ≤ f1 → i + 1 ≤ f2 →
      depthGo t2 f1 (t[i]).identifier = depthGo t f2 (t[i]).identifier := by
  intro i
  induction i using Nat.strong_induction_on with
  | _ i IH =>
      intro h f1 f2 hf1 hf2
      obtain ⟨g1, rfl⟩ : ∃ g1, f1 = g1 + 1 := ⟨f1 - 1, by omega⟩
      obtain ⟨g2, rfl⟩ : ∃ g2, f2 = g2 + 1 := ⟨f2 - 1, by omega⟩
      by_cases hi : i = 0
      · subst hi
        have hroot := hW.get0 h
        rw [hroot]
        have hf : findNode t rootStr = some rootNode := findNode_root hW
        obtain ⟨n2, hn2, hn2p⟩ := hext _ _ hf
        have hn2p2 : n2.parent = none := by rw [hn2p]; rfl
        simp [depthGo, hf, hn2, hn2p2, rootNode]
      · have hpos : 0 < i := Nat.pos_of_ne_zero hi
        obtain ⟨j, hj, hji, _, hpar⟩ := get_parent_at hW i h hpos
        have hfi := findNode_get hW.nodupIds i h
        obtain ⟨n2, hn2, hn2p⟩ := hext _ _ hfi
        rw [hpar] at hn2p
        have hIH := IH j hji hj g1 g2 (by omega) (by omega)
        simp [depthGo, hfi, hn2, hn2p, hpar, hIH]

/-- Fuel-insensitivity of `depthGo` on a fixed well-formed tree. -/
lemma depthGo_fuel {t : List TNode} (hW : Wf t)
    (i : Nat) (h : i < t.length) {f1 f2 : Nat}
    (hf1 : i + 1 ≤ f1) (hf2 : i + 1 ≤ f2) :
    depthGo t f1 (t[i]).identifier = depthGo t f2 (t[i]).identifier :=
  depthGo_ext hW (fun _ n hn => ⟨n, hn, rfl⟩) i h f1 f2 hf1 hf2

/-- The main chain lemma: on a well-formed tree, the classification walk
from the node at position `i` (with any sufficient fuel) has length
exactly the node's depth, visits only nodes at strictly earlier
positions, and collects pairwise distinct labels. -/
lemma chainMain {t : List TNode} (hW : Wf t) :
    ∀ i, ∀ (h : i < t.length), ∀ f, i + 1 ≤ f →
      ((classifyGo t f (t[i]).identifier).length =
        depthGo t f (t[i]).identifier)
      ∧ (∀ x ∈ classifyGo t f (t[i]).identifier,
          ∃ k, ∃ (hk : k < t.length), k < i ∧
            x = ((t[k]).tag, (t[k]).idnum))
      ∧ ((classifyGo t f (t[i]).identifier).map Prod.fst).Nodup := by
  intro i
  induction i using Nat.strong_induction_on with
  | _ i IH =>
      intro h f hf
      obtain ⟨f1, rfl⟩ : ∃ f1, f = f1 + 1 := ⟨f - 1, by omega⟩
      by_cases hi : i = 0
      · subst hi
        have hroot := hW.get0 h
        rw [hroot]
        have hgp : get_parent t rootStr = none := get_parent_rootStr hW
        have hfr : findNode t rootStr = some rootNode := findNode_root hW
        simp [classifyGo, depthGo, hgp, hfr, rootNode]
      · have hpos : 0 < i := Nat.pos_of_ne_zero hi
        obtain ⟨j, hj, hji, hgp, hpar⟩ := get_parent_at hW i h hpos
        have hfi := findNode_get hW.nodupIds i h
        have hcg : classifyGo t (f1 + 1) (t[i]).identifier =
            ((t[j]).tag, (t[j]).idnum) ::
              classifyGo t f1 (t[j]).identifier := by
          simp [classifyGo, hgp]
        have hdg : depthGo t (f1 + 1) (t[i]).identifier =
            depthGo t f1 (t[j]).identifier + 1 := by
          simp [depthGo, hfi, hpar]
        have hIH := IH j hji hj f1 (by omega)
        refine ⟨?_, ?_, ?_⟩
        · rw [hcg, hdg]
          simp [hIH.1]
        · rw [hcg]
          intro x hx
          rcases List.mem_cons.mp hx with hx | hx
          · exact ⟨j, hj, hji, hx⟩
          · obtain ⟨k, hk, hkj, hxk⟩ := hIH.2.1 x hx
            exact ⟨k, hk, by omega, hxk⟩
        · rw [hcg]
          simp only [List.map_cons, List.nodup_cons]
          refine ⟨?_, hIH.2.2⟩
          intro hmem
          obtain ⟨x, hx, hxfst⟩ := List.mem_map.mp hmem
          obtain ⟨k, hk, hkj, hxk⟩ := hIH.2.1 x hx
          have htags : (t[k]).tag = (t[j]).tag := by
            rw [hxk] at hxfst
            exact hxfst
          have hids : (t[k]).identifier = (t[j]).identifier := by
            rw [hW.lowerTag _ (List.getElem_mem hk),
                hW.lowerTag _ (List.getElem_mem hj), htags]
          exact hW.id_ne hk hj (by omega) hids

/-! ### The Python dict on duplicate-free pair lists -/

lemma foldl_dictInsert (l : List (Str × Nat)) :
    ∀ acc, (((acc ++ l).map Prod.fst).Nodup) → l.foldl dictInsert acc = acc ++ l := by
  induction l with
  | nil => intro acc _; simp
  | cons p rest ih =>
      intro acc h
      have hnotin : ¬ (acc.any (fun q => decide (q.1 = p.1)) = true) := by
        simp only [List.any_eq_true, decide_eq_true_eq]
        rintro ⟨q, hq, hq1⟩
        have hsplit : (acc ++ p :: rest).map Prod.fst =
            acc.map Prod.fst ++ p.1 :: rest.map Prod.fst := by simp
        rw [hsplit] at h
        have hdisj := (List.nodup_append.mp h).2.2
        exact hdisj (List.mem_map_of_mem Prod.fst hq)
          (by rw [hq1]; exact List.mem_cons_self ..)
      have hstep : dictInsert acc p = acc ++ [p] := by
        simp only [dictInsert]
        rw [if_neg hnotin]
      rw [List.foldl_cons, hstep, ih (acc ++ [p]) (by simpa using h)]
      simp

/-- On a pair list with pairwise distinct keys, Python's `dict` keeps the
list as it is (no key collapses, order preserved). -/
lemma pyDict_nodup {l : List (Str × Nat)} (h : (l.map Prod.fst).Nodup) :
    pyDict l = l := by
  have := foldl_dictInsert l [] (by simpa using h)
  simpa [pyDict] using this

lemma pyDictKeys_nodup {l : List (Str × Nat)} (h : (l.map Prod.fst).Nodup) :
    pyDictKeys l = l.map Prod.fst := by
  simp [pyDictKeys, pyDict_nodup h]

lemma pyDictVals_nodup {l : List (Str × Nat)} (h : (l.map Prod.fst).Nodup) :
    pyDictVals l = l.map Prod.snd := by
  simp [pyDictVals, pyDict_nodup h]

/-! ### Shape of successful and failed inserts -/

lemma pyLower_rootStr : pyLower rootStr = rootStr := rfl

/-- A failed `add_node_to_tree` re-raises with the caller's state fully
restored. -/
lemma add_err {b b1 : Builder} {tag parentId : Str} {o : Nat}
    (h : add_node_to_tree b tag parentId o = .error b1) : b1 = b := by
  simp only [add_node_to_tree] at h
  by_cases h1 : (findNode b.tree (pyLower tag)).isSome = true
  · rw [if_pos h1] at h
    injection h with h
    rw [← h, Nat.add_sub_cancel]
  · rw [if_neg h1] at h
    by_cases h2 : (findNode b.tree (pyLower parentId)).isNone = true
    · rw [if_pos h2] at h
      injection h with h
      rw [← h, Nat.add_sub_cancel]
    · rw [if_neg h2] at h
      exact absurd h (by simp)

/-- A successful `add_node_to_tree` appends exactly one node (fresh
identifier, existing parent) and advances the counter. -/
lemma add_ok {b : Builder} {tag parentId : Str} {o : Nat} {b1 : Builder}
    (h : add_node_to_tree b tag parentId o = .ok b1) :
    findNode b.tree (pyLower tag) = none ∧
    findNode b.tree (pyLower parentId) ≠ none ∧
    b1.tree = b.tree ++
      [⟨tag, pyLower tag, some (pyLower parentId), o, b.num_read_rows + 1, none⟩] ∧
    b1.num_read_rows = b.num_read_rows + 1 ∧
    b1.nodes = b.nodes ++ [pyLower tag] ∧
    b1.faild_rows = b.faild_rows := by
  simp only [add_node_to_tree] at h
  by_cases h1 : (findNode b.tree (pyLower tag)).isSome = true
  · rw [if_pos h1] at h
    exact absurd h (by simp)
  · rw [if_neg h1] at h
    by_cases h2 : (findNode b.tree (pyLower parentId)).isNone = true
    · rw [if_pos h2] at h
      exact absurd h (by simp)
    · rw [if_neg h2] at h
      injection h with h
      subst h
      refine ⟨Option.not_isSome_iff_eq_none.mp h1, ?_, rfl, rfl, rfl, rfl⟩
      intro hn
      exact h2 (by rw [Option.isNone_iff_eq_none, hn])

/-- Positivity of depth for non-root nodes. -/
lemma depthGo_pos {t : List TNode} (hW : Wf t) (i : Nat) (h : i < t.length)
    (hpos : 0 < i) {f : Nat} (hf : 1 ≤ f) :
    0 < depthGo t f (t[i]).identifier := by
  obtain ⟨g, rfl⟩ : ∃ g, f = g + 1 := ⟨f - 1, by omega⟩
  obtain ⟨j, hj, _, _, hpar⟩ := get_parent_at hW i h hpos
  have hfi := findNode_get hW.nodupIds i h
  simp [depthGo, hfi, hpar]

/-- Appending a fresh node whose parent is present preserves
well-formedness. -/
lemma wf_append {t : List TNode} (hW : Wf t) {tag parentL : Str} {o : Nat}
    (hfresh : findNode t (pyLower tag) = none)
    (hpar : findNode t parentL ≠ none)
    (hpne : parentL ≠ []) :
    Wf (t ++ [⟨tag, pyLower tag, some parentL, o, t.length, none⟩]) := by
  obtain ⟨q, hq⟩ : ∃ q, findNode t parentL = some q := by
    cases hfq : findNode t parentL with
    | none => exact absurd hfq hpar
    | some q => exact ⟨q, rfl⟩
  obtain ⟨hqid, hqmem⟩ := findNode_some hq
  obtain ⟨jq, hjq, hjqe⟩ := List.mem_iff_getElem.mp hqmem
  refine ⟨?_, ?_, ?_, ?_, ?_, ?_⟩
  · cases t with
    | nil => exact absurd rfl hW.ne_nil
    | cons a l => simpa using hW.shape0
  · have hni : pyLower tag ∉ t.map TNode.identifier := by
      intro hmem
      obtain ⟨n, hn, hid⟩ := List.mem_map.mp hmem
      exact (findNode_none.mp hfresh n hn) hid
    rw [List.map_append, List.nodup_append]
    refine ⟨hW.nodupIds, by simp, ?_⟩
    intro a ha hb
    simp only [List.map_cons, List.map_nil, List.mem_singleton] at hb
    subst hb
    exact hni ha
  · rw [List.map_append, hW.idsRange, List.length_append]
    simp [List.range_succ]
  · intro i h hpos
    by_cases hi : i < t.length
    · obtain ⟨p, hp, j, hj, hji, hpj⟩ := hW.parentEarlier i hi hpos
      refine ⟨p, ?_, j, by simp; omega, hji, ?_⟩
      · rw [List.getElem_append_left hi]
        exact hp
      · rw [List.getElem_append_left hj]
        exact hpj
    · have hieq : i = t.length := by
        simp only [List.length_append, List.length_cons, List.length_nil] at h
        omega
      have hx : (t ++ [⟨tag, pyLower tag, some parentL, o, t.length, none⟩])[i] =
          ⟨tag, pyLower tag, some parentL, o, t.length, none⟩ :=
        List.getElem_concat_length t _ i hieq h
      refine ⟨parentL, by rw [hx], jq, by simp; omega, by omega, ?_⟩
      rw [List.getElem_append_left hjq, hjqe, hqid]
  · intro n hn
    rcases List.mem_append.mp hn with hn | hn
    · exact hW.lowerTag n hn
    · simp only [List.mem_singleton] at hn
      subst hn
      rfl
  · intro n hn p hp
    rcases List.mem_append.mp hn with hn | hn
    · exact hW.parentNe n hn p hp
    · simp only [List.mem_singleton] at hn
      subst hn
      injection hp with hp
      subst hp
      exact hpne

/-! ### `update_node` only rewrites the classification slot -/

/-- The per-node function applied by `updateCls`. -/
def clsSet (nid : Str) (ls : List Str) (ids : List Nat) (n : TNode) : TNode :=
  if n.identifier = nid then { n with classification := some (ls, ids) } else n

lemma updateCls_eq_map (t : List TNode) (nid : Str) (ls : List Str) (ids : List Nat) :
    updateCls t nid ls ids = t.map (clsSet nid ls ids) := rfl

lemma clsSet_identifier (nid : Str) (ls : List Str) (ids : List Nat) (n : TNode) :
    (clsSet nid ls ids n).identifier = n.identifier := by
  unfold clsSet
  split <;> rfl

lemma clsSet_parent (nid : Str) (ls : List Str) (ids : List Nat) (n : TNode) :
    (clsSet nid ls ids n).parent = n.parent := by
  unfold clsSet
  split <;> rfl

lemma clsSet_tag (nid : Str) (ls : List Str) (ids : List Nat) (n : TNode) :
    (clsSet nid ls ids n).tag = n.tag := by
  unfold clsSet
  split <;> rfl

lemma clsSet_idnum (nid : Str) (ls : List Str) (ids : List Nat) (n : TNode) :
    (clsSet nid ls ids n).idnum = n.idnum := by
  unfold clsSet
  split <;> rfl

lemma clsSet_of_ne {nid : Str} {n : TNode} (h : n.identifier ≠ nid)
    (ls : List Str) (ids : List Nat) : clsSet nid ls ids n = n := by
  unfold clsSet
  rw [if_neg h]

lemma clsSet_of_eq {nid : Str} {n : TNode} (h : n.identifier = nid)
    (ls : List Str) (ids : List Nat) :
    clsSet nid ls ids n = { n with classification := some (ls, ids) } := by
  unfold clsSet
  rw [if_pos h]

lemma findNode_updateCls (t : List TNode) (nid : Str) (ls : List Str)
    (ids : List Nat) (nid2 : Str) :
    findNode (updateCls t nid ls ids) nid2 =
      (findNode t nid2).map (clsSet nid ls ids) := by
  rw [updateCls_eq_map]
  exact findNode_map (clsSet_identifier nid ls ids) nid2

lemma wf_updateCls {t : List TNode} (hW : Wf t) {nid : Str}
    (hnid : nid ≠ rootStr) (ls : List Str) (ids : List Nat) :
    Wf (updateCls t nid ls ids) := by
  rw [updateCls_eq_map]
  have hid : ∀ n : TNode, (clsSet nid ls ids n).identifier = n.identifier :=
    clsSet_identifier nid ls ids
  refine ⟨?_, ?_, ?_, ?_, ?_, ?_⟩
  · rw [List.head?_map, hW.shape0]
    have : clsSet nid ls ids rootNode = rootNode :=
      clsSet_of_ne (fun hEq => hnid hEq.symm) ls ids
    simp [this]
  · have : (t.map (clsSet nid ls ids)).map TNode.identifier = t.map TNode.identifier := by
      rw [List.map_map]
      exact List.map_congr_left (fun n _ => hid n)
    rw [this]
    exact hW.nodupIds
  · have : (t.map (clsSet nid ls ids)).map TNode.idnum = t.map TNode.idnum := by
      rw [List.map_map]
      exact List.map_congr_left (fun n _ => clsSet_idnum nid ls ids n)
    rw [this, List.length_map]
    exact hW.idsRange
  · intro i h hpos
    have hlt : i < t.length := by simpa using h
    obtain ⟨p, hp, j, hj, hji, hpj⟩ := hW.parentEarlier i hlt hpos
    refine ⟨p, ?_, j, by simpa using hj, hji, ?_⟩
    · rw [List.getElem_map, clsSet_parent]
      exact hp
    · rw [List.getElem_map, hid]
      exact hpj
  · intro n hn
    obtain ⟨m, hm, hmn⟩ := List.mem_map.mp hn
    rw [← hmn, hid, clsSet_tag]
    exact hW.lowerTag m hm
  · intro n hn p hp
    obtain ⟨m, hm, hmn⟩ := List.mem_map.mp hn
    rw [← hmn, clsSet_parent] at hp
    exact hW.parentNe m hm p hp

/-! ### The lineage invariant -/

/-- The cached-lineage invariant on a tree: every non-root node's cached
label list is one shorter than its depth, the id list is parallel, and
the cache is empty exactly for children of the synthetic root. -/
def ClsOk (t : List TNode) : Prop :=
  ∀ i, ∀ (h : i < t.length), 0 < i →
    (linLabels t[i]).length + 1 = depth t (t[i]).identifier
    ∧ (linIds t[i]).length = (linLabels t[i]).length
    ∧ ((linLabels t[i]) = [] ↔ (t[i]).parent = some rootStr)

/-- The full invariant of a builder state reachable in a run. -/
structure BInv (b : Builder) : Prop where
  wf : Wf b.tree
  cls : ClsOk b.tree
  numEq : b.num_read_rows + 1 = b.tree.length

lemma inv_init (carry : List Nat) : BInv (initBuilder carry) := by
  refine ⟨⟨rfl, ?_, ?_, ?_, ?_, ?_⟩, ?_, rfl⟩
  · show (List.map TNode.identifier [rootNode]).Nodup
    decide
  · show List.map TNode.idnum [rootNode] = List.range 1
    decide
  · intro i h hpos
    simp only [initBuilder, List.length_singleton] at h
    omega
  · intro n hn
    simp only [initBuilder, List.mem_singleton] at hn
    subst hn
    rfl
  · intro n hn p hp
    simp only [initBuilder, List.mem_singleton] at hn
    subst hn
    exact absurd hp (by simp [rootNode])
  · intro i h hpos
    simp only [initBuilder, List.length_singleton] at h
    omega

lemma inv_deferRow {b : Builder} (hI : BInv b) (o : Nat) : BInv (deferRow b o) :=
  ⟨hI.wf, hI.cls, hI.numEq⟩

/-- Invariant preservation for the under-root insert (the `else` branch of
`build_tree`, line 407): the new node keeps `classification := none` and
sits at depth 1. -/
lemma binv_after_root_insert {b : Builder} (hI : BInv b) {taxonId : Str} {o : Nat}
    {b1 : Builder} (hins : add_node_to_tree b taxonId rootStr o = .ok b1) :
    BInv b1 ∧ ∃ ext, b1.tree = b.tree ++ ext := by
  obtain ⟨hfresh, hparsome, htree, hnum, _, _⟩ := add_ok hins
  rw [pyLower_rootStr] at htree hparsome
  rw [hI.numEq] at htree
  have hW1 : Wf b1.tree := by
    rw [htree]
    exact wf_append hI.wf hfresh hparsome (by decide)
  have hlen1 : b1.tree.length = b.tree.length + 1 := by
    rw [htree]
    simp
  refine ⟨⟨hW1, ?_, by rw [hnum, hlen1, hI.numEq]⟩,
    [⟨taxonId, pyLower taxonId, some rootStr, o, b.tree.length, none⟩], htree⟩
  intro i h hpos
  by_cases hi : i < b.tree.length
  · have hgot : b1.tree[i] = b.tree[i] := by
      simp only [htree]
      exact List.getElem_append_left hi
    have hext : ∀ nid, ∀ n, findNode b.tree nid = some n →
        ∃ n2, findNode b1.tree nid = some n2 ∧ n2.parent = n.parent := by
      intro nid n hn
      exact ⟨n, by rw [htree]; exact findNode_append_of_some _ hn, rfl⟩
    have hdepth : depth b1.tree (b.tree[i]).identifier =
        depth b.tree (b.tree[i]).identifier := by
      unfold depth
      rw [hlen1]
      exact depthGo_ext hI.wf hext i hi (b.tree.length + 1) b.tree.length
        (by omega) (by omega)
    rw [hgot, hdepth]
    exact hI.cls i hi hpos
  · have hieq : i = b.tree.length := by
      rw [hlen1] at h
      omega
    subst hieq
    have hxg : b1.tree[b.tree.length] =
        ⟨taxonId, pyLower taxonId, some rootStr, o, b.tree.length, none⟩ := by
      simp only [htree]
      exact List.getElem_concat_length _ _ _ rfl (by simp)
    rw [hxg]
    have hfx : findNode b1.tree (pyLower taxonId) =
        some ⟨taxonId, pyLower taxonId, some rootStr, o, b.tree.length, none⟩ := by
      rw [htree, findNode_append_of_none _ hfresh]
      simp [findNode]
    have hfr1 : findNode b1.tree rootStr = some rootNode := by
      rw [htree]
      exact findNode_append_of_some _ (findNode_root hI.wf)
    have hdx : depth b1.tree (pyLower taxonId) = 1 := by
      unfold depth
      rw [hlen1]
      show depthGo b1.tree (b.tree.length + 1) (pyLower taxonId) = 1
      simp [depthGo, hfx, depthGo_rootStr hfr1]
    refine ⟨?_, rfl, ?_⟩
    · show ([] : List Str).length + 1 = depth b1.tree (pyLower taxonId)
      rw [hdx]
      rfl
    · show ([] : List Str) = [] ↔ some rootStr = some rootStr
      simp

/-- Invariant preservation for the insert-under-parent branch of
`build_tree` (lines 394-405): the freshly inserted node gets the
classification computed by `build_classification`, whose dropped-root
prefix has exactly depth-minus-one entries with pairwise distinct labels,
and every older node is untouched. -/
lemma binv_after_parent_insert {b : Builder} (hI : BInv b)
    {taxonId parentId : Str} {o : Nat} {b1 : Builder}
    {c : List (Str × Nat)} {K : List Str} {V : List Nat} {t2 : List TNode}
    (hins : add_node_to_tree b taxonId parentId o = .ok b1)
    (hpne : pyLower parentId ≠ [])
    (hc : c = build_classification b1.tree (pyLower taxonId))
    (hK : K = pyDictKeys c.dropLast)
    (hV : V = pyDictVals c.dropLast)
    (ht2 : t2 = updateCls b1.tree (pyLower taxonId) K V) :
    0 < c.length ∧ BInv { b1 with tree := t2 } ∧ ∃ ext, t2 = b.tree ++ ext := by
  obtain ⟨hfresh, hparsome, htree, hnum, _, _⟩ := add_ok hins
  rw [hI.numEq] at htree
  have hW1 : Wf b1.tree := by
    rw [htree]
    exact wf_append hI.wf hfresh hparsome hpne
  have hlen1 : b1.tree.length = b.tree.length + 1 := by
    rw [htree]
    simp
  have hilen : b.tree.length < b1.tree.length := by omega
  have hxg : b1.tree[b.tree.length] =
      ⟨taxonId, pyLower taxonId, some (pyLower parentId), o, b.tree.length, none⟩ := by
    simp only [htree]
    exact List.getElem_concat_length _ _ _ rfl (by simp)
  -- the chain facts at the freshly inserted node
  have hchain := chainMain hW1 b.tree.length hilen (b1.tree.length + 1) (by omega)
  rw [hxg] at hchain
  have hlen_c : c.length = depthGo b1.tree (b1.tree.length + 1) (pyLower taxonId) := by
    rw [hc]
    exact hchain.1
  have hnod_c : (c.map Prod.fst).Nodup := by
    rw [hc]
    exact hchain.2.2
  -- the parent node inside the old tree
  obtain ⟨q, hq⟩ : ∃ q, findNode b.tree (pyLower parentId) = some q := by
    cases hfq : findNode b.tree (pyLower parentId) with
    | none => exact absurd hfq hparsome
    | some q => exact ⟨q, rfl⟩
  obtain ⟨hqid, hqmem⟩ := findNode_some hq
  obtain ⟨jq, hjq, hjqe⟩ := List.mem_iff_getElem.mp hqmem
  have hfx : findNode b1.tree (pyLower taxonId) =
      some ⟨taxonId, pyLower taxonId, some (pyLower parentId), o, b.tree.length, none⟩ := by
    rw [htree, findNode_append_of_none _ hfresh]
    simp [findNode]
  have hstepD : ∀ f, depthGo b1.tree (f + 1) (pyLower taxonId) =
      depthGo b1.tree f (pyLower parentId) + 1 := by
    intro f
    simp [depthGo, hfx]
  have hext1 : ∀ nid, ∀ n, findNode b.tree nid = some n →
      ∃ n2, findNode b1.tree nid = some n2 ∧ n2.parent = n.parent := by
    intro nid n hn
    exact ⟨n, by rw [htree]; exact findNode_append_of_some _ hn, rfl⟩
  have hdq : ∀ f1 f2, jq + 1 ≤ f1 → jq + 1 ≤ f2 →
      depthGo b1.tree f1 (pyLower parentId) = depthGo b.tree f2 (pyLower parentId) := by
    intro f1 f2 hf1 hf2
    have := depthGo_ext hI.wf hext1 jq hjq f1 f2 hf1 hf2
    rw [hjqe, hqid] at this
    exact this
  have hDpos : 0 < depthGo b1.tree (b1.tree.length + 1) (pyLower taxonId) := by
    rw [hstepD]
    omega
  have hclpos : 0 < c.length := by
    rw [hlen_c]
    exact hDpos
  -- keys and values of the cached classification
  have hnodd : (c.dropLast.map Prod.fst).Nodup := by
    rw [List.map_dropLast]
    exact List.Nodup.sublist (List.dropLast_sublist _) hnod_c
  have hkeylen : K.length = c.length - 1 := by
    rw [hK, pyDictKeys_nodup hnodd, List.length_map, List.length_dropLast]
  have hvallen : V.length = c.length - 1 := by
    rw [hV, pyDictVals_nodup hnodd, List.length_map, List.length_dropLast]
  have hKnil : K = [] ↔ c.length = 1 := by
    rw [hK, pyDictKeys_nodup hnodd]
    constructor
    · intro hE
      have := congrArg List.length hE
      simp only [List.length_map, List.length_dropLast, List.length_nil] at this
      omega
    · intro hE
      have : c.dropLast.length = 0 := by
        rw [List.length_dropLast]
        omega
      rw [List.length_eq_zero] at this
      rw [this]
      rfl
  -- the target identifier is neither root nor any old identifier
  have hnidroot : pyLower taxonId ≠ rootStr := by
    intro hE
    rw [hE, findNode_root hI.wf] at hfresh
    exact Option.noConfusion hfresh
  -- the updated tree
  have hWup : Wf t2 := by
    rw [ht2]
    exact wf_updateCls hW1 hnidroot K V
  have hlenup : t2.length = b.tree.length + 1 := by
    rw [ht2, updateCls_eq_map, List.length_map, hlen1]
  have hextup : ∀ nid, ∀ n, findNode b1.tree nid = some n →
      ∃ n2, findNode t2 nid = some n2 ∧ n2.parent = n.parent := by
    intro nid n hn
    refine ⟨clsSet (pyLower taxonId) K V n, ?_, clsSet_parent _ _ _ n⟩
    rw [ht2, findNode_updateCls, hn]
    rfl
  have hextup2 : ∀ nid, ∀ n, findNode b.tree nid = some n →
      ∃ n2, findNode t2 nid = some n2 ∧ n2.parent = n.parent := by
    intro nid n hn
    exact hextup nid n (by rw [htree]; exact findNode_append_of_some _ hn)
  -- the new node's depth in the final tree
  have hdepthx : depth t2 (pyLower taxonId) =
      depthGo b1.tree (b1.tree.length + 1) (pyLower taxonId) := by
    unfold depth
    rw [hlenup]
    have := depthGo_ext hW1 hextup b.tree.length hilen
      (b.tree.length + 1) (b1.tree.length + 1) (by omega) (by omega)
    rw [hxg] at this
    exact this
  -- characterisation of depth 1 through the parent's position
  have hjq_root : jq = 0 ↔ pyLower parentId = rootStr := by
    constructor
    · intro h0
      subst h0
      rw [← hqid, ← hjqe, hI.wf.get0 hjq]
      rfl
    · intro hroot
      have : (b.tree[jq]).identifier = rootStr := by
        rw [hjqe, hqid]
        exact hroot
      exact (hI.wf.id_root_iff hjq).mp this
  have hjq_depth : depthGo b.tree b.tree.length (pyLower parentId) = 0 ↔ jq = 0 := by
    constructor
    · intro h0
      by_contra hne
      have hpos := depthGo_pos hI.wf jq hjq (Nat.pos_of_ne_zero hne)
        (f := b.tree.length) (by omega)
      rw [hjqe, hqid] at hpos
      omega
    · intro h0
      have hroot : pyLower parentId = rootStr := hjq_root.mp h0
      rw [hroot]
      exact depthGo_rootStr (findNode_root hI.wf) _
  have hD1 : depthGo b1.tree (b1.tree.length + 1) (pyLower taxonId) = 1 ↔
      pyLower parentId = rootStr := by
    rw [hstepD, hdq b1.tree.length b.tree.length (by omega) (by omega)]
    constructor
    · intro hE
      exact hjq_root.mp (hjq_depth.mp (by omega))
    · intro hE
      have := hjq_depth.mpr (hjq_root.mpr hE)
      omega
  refine ⟨hclpos, ⟨hWup, ?_, ?_⟩, ?_⟩
  · -- ClsOk t2
    intro i h hpos
    have hh : i < b.tree.length + 1 := by
      rw [hlenup] at h
      exact h
    by_cases hi : i < b.tree.length
    · -- old node untouched
      have hb1i : b1.tree[i] = b.tree[i] := by
        simp only [htree]
        exact List.getElem_append_left hi
      have e2 : t2 = List.map (clsSet (pyLower taxonId) K V) b1.tree := by
        rw [ht2, updateCls_eq_map]
      have hmaplen : i < (List.map (clsSet (pyLower taxonId) K V) b1.tree).length := by
        rw [List.length_map]
        omega
      have hg1 : t2[i] = b.tree[i] := by
        calc t2[i] = (List.map (clsSet (pyLower taxonId) K V) b1.tree)[i] :=
              List.getElem_of_eq e2 h
          _ = clsSet (pyLower taxonId) K V (b1.tree[i]) := List.getElem_map _
          _ = clsSet (pyLower taxonId) K V (b.tree[i]) := by rw [hb1i]
          _ = b.tree[i] := clsSet_of_ne
              (fun hE => (findNode_none.mp hfresh _ (List.getElem_mem hi)) hE) _ _
      have hdepthi : depth t2 (b.tree[i]).identifier =
          depth b.tree (b.tree[i]).identifier := by
        unfold depth
        rw [hlenup]
        exact depthGo_ext hI.wf hextup2 i hi (b.tree.length + 1) b.tree.length
          (by omega) (by omega)
      rw [hg1, hdepthi]
      exact hI.cls i hi hpos
    · -- the freshly inserted node
      have hieq : i = b.tree.length := by omega
      subst hieq
      have e2 : t2 = List.map (clsSet (pyLower taxonId) K V) b1.tree := by
        rw [ht2, updateCls_eq_map]
      have hmaplen : b.tree.length < (List.map (clsSet (pyLower taxonId) K V) b1.tree).length := by
        rw [List.length_map]
        omega
      have hgx : t2[b.tree.length] =
          { (⟨taxonId, pyLower taxonId, some (pyLower parentId), o,
              b.tree.length, none⟩ : TNode) with classification := some (K, V) } := by
        calc t2[b.tree.length]
            = (List.map (clsSet (pyLower taxonId) K V) b1.tree)[b.tree.length] :=
              List.getElem_of_eq e2 h
          _ = clsSet (pyLower taxonId) K V (b1.tree[b.tree.length]) :=
              List.getElem_map _
          _ = clsSet (pyLower taxonId) K V
              (⟨taxonId, pyLower taxonId, some (pyLower parentId), o,
                b.tree.length, none⟩ : TNode) := by rw [hxg]
          _ = { (⟨taxonId, pyLower taxonId, some (pyLower parentId), o,
                b.tree.length, none⟩ : TNode) with
                classification := some (K, V) } := clsSet_of_eq rfl _ _
      rw [hgx]
      refine ⟨?_, ?_, ?_⟩
      · show K.length + 1 = depth t2 (pyLower taxonId)
        rw [hdepthx, hkeylen, hlen_c]
        omega
      · show V.length = K.length
        rw [hvallen, hkeylen]
      · show K = [] ↔ some (pyLower parentId) = some rootStr
        rw [hKnil, Option.some_inj]
        rw [hlen_c]
        constructor
        · intro hE
          exact hD1.mp hE
        · intro hE
          exact hD1.mpr hE
  · -- counter relation
    show b1.num_read_rows + 1 = t2.length
    rw [hnum, hlenup, hI.numEq]
  · -- the update only appends
    refine ⟨[{ (⟨taxonId, pyLower taxonId, some (pyLower parentId), o,
        b.tree.length, none⟩ : TNode) with classification := some (K, V) }], ?_⟩
    rw [ht2, htree, updateCls_eq_map, List.map_append]
    have hold : b.tree.map (clsSet (pyLower taxonId) K V) = b.tree := by
      have : ∀ n ∈ b.tree, clsSet (pyLower taxonId) K V n = n := by
        intro n hn
        exact clsSet_of_ne (fun hE => (findNode_none.mp hfresh _ hn) hE) _ _
      calc b.tree.map (clsSet (pyLower taxonId) K V)
          = b.tree.map id := List.map_congr_left this
        _ = b.tree := List.map_id _
    rw [hold]
    have hnew : [(⟨taxonId, pyLower taxonId, some (pyLower parentId), o,
        b.tree.length, none⟩ : TNode)].map (clsSet (pyLower taxonId) K V) =
        [{ (⟨taxonId, pyLower taxonId, some (pyLower parentId), o,
            b.tree.length, none⟩ : TNode) with classification := some (K, V) }] := by
      simp only [List.map_cons, List.map_nil]
      have hEq2 : clsSet (pyLower taxonId) K V
          (⟨taxonId, pyLower taxonId, some (pyLower parentId), o,
            b.tree.length, none⟩ : TNode) =
          { (⟨taxonId, pyLower taxonId, some (pyLower parentId), o,
              b.tree.length, none⟩ : TNode) with
            classification := some (K, V) } := clsSet_of_eq rfl _ _
      rw [hEq2]
    rw [hnew]

/-- `insertResolved` preserves the invariant and only appends nodes. -/
lemma inv_insertResolved {b : Builder} {taxonId parentId : Str} {o : Nat}
    {b2 : Builder} (hI : BInv b)
    (h : insertResolved b taxonId parentId o = .ok b2) :
    BInv b2 ∧ ∃ ext, b2.tree = b.tree ++ ext := by
  unfold insertResolved at h
  by_cases hp : 0 < parentId.length
  · rw [if_pos hp] at h
    cases hins : add_node_to_tree b taxonId parentId o with
    | error b1 =>
        replace h : (Except.ok (deferRow b1 o) : Except PyErr Builder) = Except.ok b2 := by
          rw [hins] at h
          exact h
        injection h with h
        have hb1 : b1 = b := add_err hins
        subst hb1
        subst h
        exact ⟨inv_deferRow hI o, [], by simp [deferRow]⟩
    | ok b1 =>
        have hpne : pyLower parentId ≠ [] := by
          intro hE
          have := congrArg List.length hE
          rw [pyLower_length] at this
          simp only [List.length_nil] at this
          omega
        have hB := binv_after_parent_insert hI hins hpne rfl rfl rfl rfl
        replace h : ((if 0 < (build_classification b1.tree (pyLower taxonId)).length then
            Except.ok (Builder.mk (updateCls b1.tree (pyLower taxonId)
              (pyDictKeys (build_classification b1.tree (pyLower taxonId)).dropLast)
              (pyDictVals (build_classification b1.tree (pyLower taxonId)).dropLast))
              b1.num_read_rows b1.nodes b1.faild_rows)
          else Except.ok b1) : Except PyErr Builder) = Except.ok b2 := by
          rw [hins] at h
          exact h
        rw [if_pos hB.1] at h
        injection h with h
        subst h
        exact ⟨hB.2.1, hB.2.2⟩
  · rw [if_neg hp] at h
    cases hins : add_node_to_tree b taxonId rootStr o with
    | error b1 =>
        replace h : (Except.error PyErr.duplicateOrMissingParent : Except PyErr Builder)
            = Except.ok b2 := by
          rw [hins] at h
          exact h
        exact absurd h (by simp)
    | ok b1 =>
        replace h : (Except.ok b1 : Except PyErr Builder) = Except.ok b2 := by
          rw [hins] at h
          exact h
        injection h with h
        subst h
        exact binv_after_root_insert hI hins

/-- `build_tree` preserves the invariant and only appends nodes. -/
lemma inv_build_tree {b : Builder} {row : RawRow} {b2 : Builder}
    (hI : BInv b) (h : build_tree b row = .ok b2) :
    BInv b2 ∧ ∃ ext, b2.tree = b.tree ++ ext := by
  unfold build_tree at h
  cases hd0 : row.data[0]? with
  | none =>
      rw [hd0] at h
      exact absurd h (by simp)
  | some d0 =>
    cases hd1 : row.data[1]? with
    | none =>
        rw [hd0, hd1] at h
        exact absurd h (by simp)
    | some d1 =>
      cases hd2 : row.data[2]? with
      | none =>
          rw [hd0, hd1, hd2] at h
          exact absurd h (by simp)
      | some d2 =>
          rw [hd0, hd1, hd2] at h
          replace h : (if row.header then Except.ok b else
              if 0 < (pyLower d2).length then
                match get_parent b.tree (pyLower d2) with
                | none => Except.ok (deferRow b row.bytes)
                | some q => insertResolved b d0 q.identifier row.bytes
              else insertResolved b d0 (pyLower d1) row.bytes) = Except.ok b2 := h
          cases hhd : row.header with
          | true =>
              rw [hhd, if_pos rfl] at h
              injection h with h
              subst h
              exact ⟨hI, [], by simp⟩
          | false =>
              rw [hhd, if_neg (by simp)] at h
              by_cases hacc : 0 < (pyLower d2).length
              · rw [if_pos hacc] at h
                cases hgp : get_parent b.tree (pyLower d2) with
                | none =>
                    replace h : (Except.ok (deferRow b row.bytes) : Except PyErr Builder)
                        = Except.ok b2 := by
                      rw [hgp] at h
                      exact h
                    injection h with h
                    subst h
                    exact ⟨inv_deferRow hI _, [], by simp [deferRow]⟩
                | some qn =>
                    replace h : insertResolved b d0 qn.identifier row.bytes = Except.ok b2 := by
                      rw [hgp] at h
                      exact h
                    exact inv_insertResolved hI h
              · rw [if_neg hacc] at h
                exact inv_insertResolved hI h

/-- The first pass preserves the invariant and only appends nodes. -/
lemma inv_passRows : ∀ (rows : List RawRow) {b b2 : Builder},
    BInv b → passRows b rows = .ok b2 →
    BInv b2 ∧ ∃ ext, b2.tree = b.tree ++ ext := by
  intro rows
  induction rows with
  | nil =>
      intro b b2 hI h
      injection h with h
      subst h
      exact ⟨hI, [], by simp⟩
  | cons r rs ih =>
      intro b b2 hI h
      unfold passRows at h
      cases hbt : build_tree b r with
      | error e =>
          rw [hbt] at h
          exact absurd h (by simp)
      | ok bm =>
          replace h : passRows bm rs = .ok b2 := by
            rw [hbt] at h
            exact h
          obtain ⟨hIm, ext1, hext1⟩ := inv_build_tree hI hbt
          obtain ⟨hI2, ext2, hext2⟩ := ih hIm h
          exact ⟨hI2, ext1 ++ ext2, by rw [hext2, hext1, List.append_assoc]⟩

/-- The retry loop preserves the invariant and only appends nodes. -/
lemma inv_retryLoop (fl : InputFile) : ∀ fuel i, ∀ {b b2 : Builder} {fin : Bool},
    BInv b → retryLoop fl fuel i b = .ok (b2, fin) →
    BInv b2 ∧ ∃ ext, b2.tree = b.tree ++ ext := by
  intro fuel
  induction fuel with
  | zero =>
      intro i b b2 fin hI h
      unfold retryLoop at h
      injection h with h
      injection h with h1 h2
      subst h1
      exact ⟨hI, [], by simp⟩
  | succ fl2 ih =>
      intro i b b2 fin hI h
      unfold retryLoop at h
      by_cases hlt : i < b.faild_rows.length
      · rw [dif_pos hlt] at h
        cases hstep : retryStep fl b (b.faild_rows.get ⟨i, hlt⟩) with
        | error e =>
            rw [hstep] at h
            exact absurd h (by simp)
        | ok bm =>
            replace h : retryLoop fl fl2 (i + 1) bm = .ok (b2, fin) := by
              rw [hstep] at h
              exact h
            have hIm : BInv bm ∧ ∃ ext, bm.tree = b.tree ++ ext := by
              unfold retryStep at hstep
              cases hseek : seekRow fl (b.faild_rows.get ⟨i, hlt⟩) with
              | none =>
                  replace hstep : (Except.ok b : Except PyErr Builder) = Except.ok bm := by
                    rw [hseek] at hstep
                    exact hstep
                  injection hstep with hstep
                  subst hstep
                  exact ⟨hI, [], by simp⟩
              | some r =>
                  replace hstep : build_tree b r = Except.ok bm := by
                    rw [hseek] at hstep
                    exact hstep
                  exact inv_build_tree hI hstep
            obtain ⟨hIm2, ext1, hext1⟩ := hIm
            obtain ⟨hI2, ext2, hext2⟩ := ih (i + 1) hIm2 h
            exact ⟨hI2, ext1 ++ ext2, by rw [hext2, hext1, List.append_assoc]⟩
      · rw [dif_neg hlt] at h
        injection h with h
        injection h with h1 h2
        subst h1
        exact ⟨hI, [], by simp⟩

/-- Every builder state returned by `processing` satisfies the invariant. -/
lemma inv_processing {carry : List Nat} {f : InputFile} {fuel : Nat}
    {b : Builder} {cl : List Nat} {fin : Bool}
    (h : processing carry f fuel = .ok (b, cl, fin)) : BInv b := by
  unfold processing at h
  cases hp : passRows (initBuilder carry) (fileRows f 1) with
  | error e =>
      rw [hp] at h
      exact absurd h (by simp)
  | ok b1 =>
      replace h : (match retryLoop f fuel 0 b1 with
        | .error e => .error e
        | .ok (b2, fin2) =>
            Except.ok (if fin2 then { b2 with faild_rows := [] } else b2,
              b2.faild_rows, fin2)) = Except.ok (b, cl, fin) := by
        rw [hp] at h
        exact h
      cases hr : retryLoop f fuel 0 b1 with
      | error e =>
          rw [hr] at h
          exact absurd h (by simp)
      | ok p =>
          obtain ⟨b2, fin2⟩ := p
          replace h : (Except.ok ((if fin2 then { b2 with faild_rows := [] } else b2),
              b2.faild_rows, fin2) : Except PyErr (Builder × List Nat × Bool))
              = Except.ok (b, cl, fin) := by
            rw [hr] at h
            exact h
          injection h with h
          have hb : (if fin2 then { b2 with faild_rows := [] } else b2) = b :=
            congrArg (fun x => x.1) h
          have hI1 := (inv_passRows _ (inv_init carry) hp).1
          have hI2 := (inv_retryLoop f fuel 0 hI1 hr).1
          rw [← hb]
          cases fin2 with
          | true => exact ⟨hI2.wf, hI2.cls, hI2.numEq⟩
          | false => exact hI2

/-! ### Derived facts about stored parent references -/

/-- A stored parent reference is itself lower-case, differs from the
child's identifier, and is non-empty. -/
lemma Wf.parent_facts {t : List TNode} (hW : Wf t) {n : TNode} (hn : n ∈ t)
    {p : Str} (hp : n.parent = some p) :
    pyLower p = p ∧ p ≠ n.identifier ∧ p ≠ [] := by
  obtain ⟨i, hi, hie⟩ := List.mem_iff_getElem.mp hn
  by_cases hi0 : i = 0
  · subst hi0
    rw [hW.get0 hi] at hie
    rw [← hie] at hp
    exact absurd hp (by simp [rootNode])
  · obtain ⟨p2, hp2, j, hj, hji, hpj⟩ :=
      hW.parentEarlier i hi (Nat.pos_of_ne_zero hi0)
    rw [hie, hp] at hp2
    injection hp2 with hp2
    subst hp2
    refine ⟨?_, ?_, hW.parentNe n hn p hp⟩
    · rw [← hpj, hW.lowerTag _ (List.getElem_mem hj), pyLower_idem]
    · rw [← hpj, ← hie]
      exact hW.id_ne hj hi (by omega)

/-- When `add_node_to_tree` succeeds inside the non-empty-parent branch,
`insertResolved` succeeds too, and the (single) appended node records the
lower-cased taxon id as identifier, the original-case tag as label, the
lower-cased parent and the next sequence id. -/
lemma insertResolved_ok_of_add {b : Builder} (hI : BInv b)
    {taxonId parentId : Str} {o : Nat} {b1 : Builder}
    (hp : 0 < parentId.length)
    (hadd : add_node_to_tree b taxonId parentId o = .ok b1) :
    ∃ b2, insertResolved b taxonId parentId o = .ok b2 ∧
      b2.tree.length = b.tree.length + 1 ∧
      ∀ (hlen : b.tree.length < b2.tree.length),
        (b2.tree[b.tree.length]).parent = some (pyLower parentId) ∧
        (b2.tree[b.tree.length]).tag = taxonId ∧
        (b2.tree[b.tree.length]).identifier = pyLower taxonId ∧
        (b2.tree[b.tree.length]).idnum = b.num_read_rows + 1 := by
  have hpne : pyLower parentId ≠ [] := by
    intro hE
    have := congrArg List.length hE
    rw [pyLower_length] at this
    simp only [List.length_nil] at this
    omega
  have hB := binv_after_parent_insert hI hadd hpne rfl rfl rfl rfl
  obtain ⟨hfresh, _, htree, hnum, _, _⟩ := add_ok hadd
  refine ⟨Builder.mk (updateCls b1.tree (pyLower taxonId)
      (pyDictKeys (build_classification b1.tree (pyLower taxonId)).dropLast)
      (pyDictVals (build_classification b1.tree (pyLower taxonId)).dropLast))
      b1.num_read_rows b1.nodes b1.faild_rows, ?_, ?_, ?_⟩
  · show insertResolved b taxonId parentId o = _
    unfold insertResolved
    rw [if_pos hp, hadd]
    show (if 0 < (build_classification b1.tree (pyLower taxonId)).length then
        Except.ok (Builder.mk (updateCls b1.tree (pyLower taxonId)
          (pyDictKeys (build_classification b1.tree (pyLower taxonId)).dropLast)
          (pyDictVals (build_classification b1.tree (pyLower taxonId)).dropLast))
          b1.num_read_rows b1.nodes b1.faild_rows)
      else Except.ok b1) = _
    rw [if_pos hB.1]
  · show (updateCls b1.tree (pyLower taxonId) _ _).length = b.tree.length + 1
    rw [updateCls_eq_map, List.length_map, htree]
    simp
  · intro hlen
    have hlen1 : b.tree.length < b1.tree.length := by
      rw [htree]
      simp
    have hxg : b1.tree[b.tree.length] =
        ⟨taxonId, pyLower taxonId, some (pyLower parentId), o,
          b.num_read_rows + 1, none⟩ := by
      simp only [htree]
      exact List.getElem_concat_length _ _ _ rfl (by simp)
    have e2 : (Builder.mk (updateCls b1.tree (pyLower taxonId)
        (pyDictKeys (build_classification b1.tree (pyLower taxonId)).dropLast)
        (pyDictVals (build_classification b1.tree (pyLower taxonId)).dropLast))
        b1.num_read_rows b1.nodes b1.faild_rows).tree =
        List.map (clsSet (pyLower taxonId)
          (pyDictKeys (build_classification b1.tree (pyLower taxonId)).dropLast)
          (pyDictVals (build_classification b1.tree (pyLower taxonId)).dropLast))
          b1.tree := by
      rw [updateCls_eq_map]
    have hmaplen : b.tree.length < (List.map (clsSet (pyLower taxonId)
        (pyDictKeys (build_classification b1.tree (pyLower taxonId)).dropLast)
        (pyDictVals (build_classification b1.tree (pyLower taxonId)).dropLast))
        b1.tree).length := by
      rw [List.length_map]
      omega
    have hgx := List.getElem_of_eq e2 hlen
    rw [hgx, List.getElem_map _, hxg]
    refine ⟨?_, ?_, ?_, ?_⟩ <;> simp [clsSet_parent, clsSet_tag, clsSet_identifier, clsSet_idnum]

/-! ### Claim C4 -/

/-- C4: confirmed.  In every builder state returned by `processing`, each
node other than the synthetic root (position 0) has cached lineage labels
whose count is exactly its depth below the root minus one (stated as
`length + 1 = depth` over `Nat`), the cached lineage-id list has the same
length, and the cached lineage is empty exactly when the node's parent is
the synthetic root.  Nodes inserted directly under the root on line 407
carry no `classification` key at all, which reads as the empty lineage. -/
theorem c4_lineage_matches_depth
    (carry : List Nat) (f : InputFile) (fuel : Nat)
    (b : Builder) (cl : List Nat) (fin : Bool)
    (hrun : processing carry f fuel = .ok (b, cl, fin)) :
    ∀ i, ∀ (h : i < b.tree.length), 0 < i →
      (linLabels b.tree[i]).length + 1 = depth b.tree (b.tree[i]).identifier
      ∧ (linIds b.tree[i]).length = (linLabels b.tree[i]).length
      ∧ ((linLabels b.tree[i]) = [] ↔ (b.tree[i]).parent = some rootStr) :=
  (inv_processing hrun).cls

/-- Node `A` of the `c2File` run. -/
def c2NodeA : TNode := ⟨[65], [97], some rootStr, 1, 1, none⟩

/-- Node `B` of the `c2File` run. -/
def c2NodeB : TNode := ⟨[66], [98], some [97], 2, 2, some ([[65]], [1])⟩

/-- Node `C` of the `c2File` run. -/
def c2NodeC : TNode := ⟨[67], [99], some [97], 3, 3, some ([[65]], [1])⟩

/-- The builder produced by `processing` on `c2File`. -/
def c2B : Builder := ⟨[rootNode, c2NodeA, c2NodeB, c2NodeC], 3, [[97], [98], [99]], []⟩

lemma c2_run : processing [] c2File 1 = .ok (c2B, [], true) := rfl

/-- Witness for C4 at node `B` of the `c2File` run: one cached label,
depth two, non-empty because `B`'s parent is `a`, not the root. -/
theorem c4_witness :
    (linLabels c2NodeB).length + 1 = depth c2B.tree c2NodeB.identifier
    ∧ (linIds c2NodeB).length = (linLabels c2NodeB).length
    ∧ ((linLabels c2NodeB) = [] ↔ c2NodeB.parent = some rootStr) :=
  c4_lineage_matches_depth [] c2File 1 c2B [] true c2_run 2 (by decide) (by decide)

/-! ### Claim C7 -/

/-- C7: confirmed.  After the first pass (`passRows` from a fresh builder)
and any amount of the retry loop, the `data['id']` sequence ids read off
the tree in insertion order are exactly `0, 1, 2, ...` (0 being the
synthetic root, real nodes 1-based), hence strictly increasing in
insertion order; the retry loop only appends to the first-pass tree, so
every node it resolves carries a sequence id strictly greater than that
of every first-pass node, regardless of file position. -/
theorem c7_sequence_ids_monotone
    (f : InputFile) (fuel : Nat) (b1 b2 : Builder) (fin : Bool)
    (h1 : passRows (initBuilder []) (fileRows f 1) = .ok b1)
    (h2 : retryLoop f fuel 0 b1 = .ok (b2, fin)) :
    b2.tree.map TNode.idnum = List.range b2.tree.length
    ∧ (∃ ext, b2.tree = b1.tree ++ ext)
    ∧ (∀ n ∈ b2.tree, n ∉ b1.tree → ∀ m ∈ b1.tree, m.idnum < n.idnum) := by
  obtain ⟨hI1, _⟩ := inv_passRows _ (inv_init []) h1
  obtain ⟨hI2, ext, hext⟩ := inv_retryLoop f fuel 0 hI1 h2
  refine ⟨hI2.wf.idsRange, ⟨ext, hext⟩, ?_⟩
  intro n hn hn1 m hm
  have hmlt : m.idnum < b1.tree.length := by
    have hmm : m.idnum ∈ b1.tree.map TNode.idnum := List.mem_map_of_mem _ hm
    rw [hI1.wf.idsRange] at hmm
    exact List.mem_range.mp hmm
  have hnext : n ∈ ext := by
    rw [hext] at hn
    rcases List.mem_append.mp hn with h | h
    · exact absurd h hn1
    · exact h
  obtain ⟨k, hk, hke⟩ := List.mem_iff_getElem.mp hnext
  have hkb : b1.tree.length + k < b2.tree.length := by
    rw [hext, List.length_append]
    omega
  have hge : b2.tree[b1.tree.length + k]? = some n := by
    rw [hext, List.getElem?_append_right (by omega)]
    have hidx : b1.tree.length + k - b1.tree.length = k := by omega
    rw [hidx, List.getElem?_eq_getElem hk, hke]
  have hr2 : (b2.tree.map TNode.idnum)[b1.tree.length + k]? = some n.idnum := by
    rw [List.getElem?_map, hge]
    rfl
  rw [hI2.wf.idsRange] at hr2
  have hkb2 : b1.tree.length + k < (List.range b2.tree.length).length := by
    rw [List.length_range]
    exact hkb
  rw [List.getElem?_eq_getElem hkb2, List.getElem_range] at hr2
  injection hr2 with hr2
  omega

/-- Node `a` of the `c9File` run (inserted in the first pass). -/
def c9First : Builder := ⟨[rootNode, c9NodeA], 1, [[97]], [1]⟩

/-- The `c9File` run's builder after the retry loop (before the
`__faild_rows` rebind). -/
def c9Full : Builder := ⟨c9Tree, 2, [[97], [98]], [1]⟩

/-- Witness for C7 on the forward-reference file `c9File`: the retried
row `b` is appended after the first pass and its sequence id 2 exceeds
the first-pass id 1 of `a`. -/
theorem c7_witness :
    c9Full.tree.map TNode.idnum = List.range c9Full.tree.length
    ∧ c9Full.tree = c9First.tree ++ [c9NodeB]
    ∧ c9NodeA.idnum < c9NodeB.idnum := by
  have h := c7_sequence_ids_monotone c9File 1 c9First c9Full true rfl rfl
  exact ⟨h.1, rfl, h.2.2 c9NodeB (by decide) (by decide) c9NodeA (by decide)⟩

/-! ### Claim C3 -/

/-- C3: confirmed.  For a non-header data row with a non-empty
`acceptedNameUsageId`: if the accepted-usage node is not in the tree the
row is deferred (its byte offset appended to `__faild_rows`) and nothing
else changes; if it is present with parent `p`, and the insert succeeds,
the new node is attached under `p` — the parent of the accepted node, one
level above it — and `p` is never the accepted node itself, so the row is
not filed as its child.  (The insert itself may still fail on a duplicate
identifier, in which case the row is likewise deferred; the claim's
"is inserted" presupposes the success hypothesis `hadd`.) -/
theorem c3_accepted_usage_resolution
    (b : Builder) (row : RawRow) (d0 d1 d2 : Str)
    (hI : BInv b)
    (hd0 : row.data[0]? = some d0) (hd1 : row.data[1]? = some d1)
    (hd2 : row.data[2]? = some d2) (hhd : row.header = false)
    (hacc : pyLower d2 ≠ []) :
    (findNode b.tree (pyLower d2) = none →
      build_tree b row = .ok (deferRow b row.bytes))
    ∧ (∀ n, findNode b.tree (pyLower d2) = some n →
        ∀ p, n.parent = some p → ∀ q, findNode b.tree p = some q →
        ∀ b1, add_node_to_tree b d0 q.identifier row.bytes = .ok b1 →
        ∃ b2, build_tree b row = .ok b2 ∧
          ∃ (hlen : b.tree.length < b2.tree.length),
            (b2.tree[b.tree.length]).parent = some p ∧ p ≠ n.identifier) := by
  have haccpos : 0 < (pyLower d2).length := List.length_pos.mpr hacc
  have hbt : ∀ r2, get_parent b.tree (pyLower d2) = r2 →
      build_tree b row = (match r2 with
        | none => Except.ok (deferRow b row.bytes)
        | some q => insertResolved b d0 q.identifier row.bytes) := by
    intro r2 hr2
    unfold build_tree
    rw [hd0, hd1, hd2]
    show (if row.header then Except.ok b else
        if 0 < (pyLower d2).length then
          match get_parent b.tree (pyLower d2) with
          | none => Except.ok (deferRow b row.bytes)
          | some q => insertResolved b d0 q.identifier row.bytes
        else insertResolved b d0 (pyLower d1) row.bytes) = _
    rw [hhd, if_neg (by simp), if_pos haccpos, hr2]
  constructor
  · intro hnone
    have hgp : get_parent b.tree (pyLower d2) = none := by
      unfold get_parent
      rw [hnone]
    exact hbt none hgp
  · intro n hn p hp q hq b1 hadd
    have hgp : get_parent b.tree (pyLower d2) = some q := by
      unfold get_parent
      rw [hn]
      show (match n.parent with
        | none => none
        | some p2 => findNode b.tree p2) = some q
      rw [hp]
      exact hq
    have hfacts := hI.wf.parent_facts (findNode_some hn).2 hp
    have hqid : q.identifier = p := (findNode_some hq).1
    have hplen : 0 < q.identifier.length := by
      rw [hqid]
      exact List.length_pos.mpr hfacts.2.2
    obtain ⟨b2, hb2, hlen2, hshape⟩ := insertResolved_ok_of_add hI hplen hadd
    refine ⟨b2, ?_, by omega, ?_, hfacts.2.1⟩
    · rw [hbt (some q) hgp]
      exact hb2
    · have := (hshape (by omega)).1
      rw [this, hqid, hfacts.1]

/-- The file `c2File` without row C. -/
def c3File : InputFile := [hdrRow, [[65], [], []], [[66], [65], []]]

/-- The builder after the first two data rows of `c2File`. -/
def c3B : Builder := ⟨[rootNode, c2NodeA, c2NodeB], 2, [[97], [98]], []⟩

lemma c3B_inv : BInv c3B :=
  (inv_passRows (fileRows c3File 1) (inv_init []) rfl).1

/-- Row C, `(id=C, parent=, accepted=B)`, at offset 3. -/
def cRow : RawRow := ⟨[[67], [], [66]], 3, false⟩

/-- Row C before its classification is attached. -/
def c2NodeC0 : TNode := ⟨[67], [99], some [97], 3, 3, none⟩

/-- The insert result for row C before `update_node`. -/
def c2B0 : Builder := ⟨[rootNode, c2NodeA, c2NodeB, c2NodeC0], 3, [[97], [98], [99]], []⟩

/-- Witness for C3: processing row C against the `c3B` state inserts C
under `a` — the parent of its accepted usage `b` — and `a ≠ b`. -/
theorem c3_witness :
    build_tree c3B cRow = Except.ok c2B
    ∧ c2NodeC.parent = some [97] ∧ ([97] : Str) ≠ [98] := by
  obtain ⟨b2, hb2, hlen, hpar, hne⟩ :=
    (c3_accepted_usage_resolution c3B cRow [67] [] [66] c3B_inv rfl rfl rfl rfl
      (by decide)).2 c2NodeB rfl [97] rfl c2NodeA rfl c2B0 rfl
  have hb2e : b2 = c2B := by
    have h2 : (Except.ok b2 : Except PyErr Builder) = Except.ok c2B := hb2.symm.trans rfl
    injection h2
  subst hb2e
  exact ⟨hb2, hpar, hne⟩

/-! ### Claim C5 -/

/-- C5: counterexample — on `c5File` the synonym row `s` (non-empty
`acceptedUsageId = b`) is inserted as a sibling of `b` (under `a`), but
the later row `d` names `s` as its parent and is accepted: in the final
tree the synonym node `s` IS the parent of `d`, so a synonym row can
become the parent of another node. -/
theorem c5_counterexample :
    (findNode (runTree (processing [] c5File 1)) [100]).map TNode.parent =
      some (some [115])
    ∧ (findNode (runTree (processing [] c5File 1)) [115]).map TNode.parent =
      some (some [97]) :=
  ⟨rfl, rfl⟩

/-- C5 (amended): a row resolved through a non-empty `acceptedUsageId` is
always inserted as a sibling of the node its accepted usage pointed to at
resolution time — the new node records exactly the accepted node's parent
reference; however, nothing prevents a later row from naming the synonym
as its own parent, so a synonym node can subsequently become a parent. -/
theorem c5_amended_synonym_inserted_as_sibling
    (b : Builder) (row : RawRow) (d0 d1 d2 : Str)
    (hI : BInv b)
    (hd0 : row.data[0]? = some d0) (hd1 : row.data[1]? = some d1)
    (hd2 : row.data[2]? = some d2) (hhd : row.header = false)
    (hacc : pyLower d2 ≠ []) :
    ∀ n, findNode b.tree (pyLower d2) = some n →
      ∀ p, n.parent = some p → ∀ q, findNode b.tree p = some q →
      ∀ b1, add_node_to_tree b d0 q.identifier row.bytes = .ok b1 →
      ∃ b2, build_tree b row = .ok b2 ∧
        ∃ (hlen : b.tree.length < b2.tree.length),
          (b2.tree[b.tree.length]).parent = n.parent := by
  have haccpos : 0 < (pyLower d2).length := List.length_pos.mpr hacc
  intro n hn p hp q hq b1 hadd
  have hgp : get_parent b.tree (pyLower d2) = some q := by
    unfold get_parent
    rw [hn]
    show (match n.parent with
      | none => none
      | some p2 => findNode b.tree p2) = some q
    rw [hp]
    exact hq
  have hbt : build_tree b row = insertResolved b d0 q.identifier row.bytes := by
    unfold build_tree
    rw [hd0, hd1, hd2]
    show (if row.header then Except.ok b else
        if 0 < (pyLower d2).length then
          match get_parent b.tree (pyLower d2) with
          | none => Except.ok (deferRow b row.bytes)
          | some q2 => insertResolved b d0 q2.identifier row.bytes
        else insertResolved b d0 (pyLower d1) row.bytes) = _
    rw [hhd, if_neg (by simp), if_pos haccpos, hgp]
  have hfacts := hI.wf.parent_facts (findNode_some hn).2 hp
  have hqid : q.identifier = p := (findNode_some hq).1
  have hplen : 0 < q.identifier.length := by
    rw [hqid]
    exact List.length_pos.mpr hfacts.2.2
  obtain ⟨b2, hb2, hlen2, hshape⟩ := insertResolved_ok_of_add hI hplen hadd
  refine ⟨b2, by rw [hbt]; exact hb2, by omega, ?_⟩
  have := (hshape (by omega)).1
  rw [this, hqid, hfacts.1, hp]

/-- Nodes of the `c5File` run. -/
def c5NodeA : TNode := ⟨[97], [97], some rootStr, 1, 1, none⟩

def c5NodeB : TNode := ⟨[98], [98], some [97], 2, 2, some ([[97]], [1])⟩

def c5NodeS0 : TNode := ⟨[115], [115], some [97], 3, 3, none⟩

def c5NodeS : TNode := ⟨[115], [115], some [97], 3, 3, some ([[97]], [1])⟩

/-- The file `c5File` truncated before the synonym row. -/
def c5File3 : InputFile := [hdrRow, [[97], [], []], [[98], [97], []]]

/-- The builder after the first two data rows of `c5File`. -/
def c5B3 : Builder := ⟨[rootNode, c5NodeA, c5NodeB], 2, [[97], [98]], []⟩

lemma c5B3_inv : BInv c5B3 :=
  (inv_passRows (fileRows c5File3 1) (inv_init []) rfl).1

/-- The synonym row `(id=s, parent=, accepted=b)` at offset 3. -/
def sRow : RawRow := ⟨[[115], [], [98]], 3, false⟩

/-- The insert result for the synonym row before `update_node`. -/
def c5B4pre : Builder := ⟨[rootNode, c5NodeA, c5NodeB, c5NodeS0], 3, [[97], [98], [115]], []⟩

/-- The builder after the synonym row. -/
def c5B4 : Builder := ⟨[rootNode, c5NodeA, c5NodeB, c5NodeS], 3, [[97], [98], [115]], []⟩

/-- Witness for the amended C5: the synonym `s` is inserted with exactly
`b`'s parent reference (both under `a`). -/
theorem c5_witness :
    build_tree c5B3 sRow = Except.ok c5B4
    ∧ c5NodeS.parent = c5NodeB.parent := by
  obtain ⟨b2, hb2, hlen, hpar⟩ :=
    c5_amended_synonym_inserted_as_sibling c5B3 sRow [115] [] [98] c5B3_inv
      rfl rfl rfl rfl (by decide) c5NodeB rfl [97] rfl c5NodeA rfl c5B4pre rfl
  have hb2e : b2 = c5B4 := by
    have h2 : (Except.ok b2 : Except PyErr Builder) = Except.ok c5B4 := hb2.symm.trans rfl
    injection h2
  subst hb2e
  exact ⟨hb2, hpar⟩

/-! ### Claim C10 -/

/-- C10: confirmed.  `fetch_node` lower-cases its argument itself, so a
caller needs no normalisation: looking up any string gives the same node
as looking up its lower-cased form.  In every tree a run produces, each
stored identifier (and each stored parent reference) is a lower-case
fixed point.  A successful insert stores the lower-cased taxon id as the
identifier and the lower-cased parent, while the node's display `tag`
keeps the taxon id's original case. -/
theorem c10_case_insensitive_interface :
    (∀ b, ∀ nid, fetch_node b nid = fetch_node b (pyLower nid))
    ∧ (∀ carry f fuel b cl fin, processing carry f fuel = .ok (b, cl, fin) →
        ∀ n ∈ b.tree, pyLower n.identifier = n.identifier
          ∧ (∀ p, n.parent = some p → pyLower p = p))
    ∧ (∀ b, ∀ tag parentId : Str, ∀ o b1, add_node_to_tree b tag parentId o = .ok b1 →
        b1.tree = b.tree ++
          [⟨tag, pyLower tag, some (pyLower parentId), o, b.num_read_rows + 1, none⟩]) := by
  refine ⟨?_, ?_, ?_⟩
  · intro b nid
    unfold fetch_node
    rw [pyLower_idem]
  · intro carry f fuel b cl fin hrun n hn
    have hI := inv_processing hrun
    refine ⟨?_, ?_⟩
    · rw [hI.wf.lowerTag n hn, pyLower_idem]
    · intro p hp
      exact (hI.wf.parent_facts hn hp).1
  · intro b tag parentId o b1 hadd
    exact (add_ok hadd).2.2.1

/-- Result of inserting `(tag=X, parent=root)` into a fresh builder. -/
def addB : Builder := ⟨[rootNode, ⟨[88], [120], some rootStr, 5, 1, none⟩], 1, [[120]], []⟩

/-- Witness for C10: looking up `"B"` equals looking up `"b"` on the
`c2File` run; node `b`'s identifier is a lower-case fixed point; and a
concrete insert stores the lower-cased identifier/parent while keeping
the original-case tag `"X" = [88]`. -/
theorem c10_witness :
    fetch_node c2B [66] = fetch_node c2B (pyLower [66])
    ∧ pyLower c2NodeB.identifier = c2NodeB.identifier
    ∧ addB.tree = (initBuilder []).tree ++
        [⟨[88], pyLower [88], some (pyLower rootStr), 5, 0 + 1, none⟩] :=
  ⟨c10_case_insensitive_interface.1 c2B [66],
   (c10_case_insensitive_interface.2.1 [] c2File 1 c2B [] true c2_run c2NodeB
     (by decide)).1,
   c10_case_insensitive_interface.2.2 (initBuilder []) [88] rootStr 5 addB rfl⟩
